import Mathlib

/-!
# Browser-Media-Converter: conversion queue engine, shallow embedding

This file embeds the conversion-queue hook of the repository
(`src/hooks/useConversionQueue.ts`, together with the job data model of
`src/types/conversion.types.ts`) as executable Lean definitions, and proves
or refutes the specification's claims about it.

Modelling conventions:
* `Date` timestamps are modelled by a logical clock (`Nat`) carried in the
  hook state; every `new Date()` in the source reads the clock and bumps it.
* The external conversion service (`convertService` / `cancelService`) is an
  oracle parameter: for each job it either succeeds with a result or throws,
  after emitting a list of progress percentages (the source rounds the
  engine's float fraction to a percentage inside the callback; we let the
  oracle emit the already-rounded percentages to stay in `Nat`).
* React's `setQueue`/`useRef` plumbing is modelled by explicit state passing;
  the `await` points of the `startQueue` loop run sequentially, and every
  intermediate store state the loop publishes is recorded in a trace so that
  trace (observable-state) properties can be stated.
* `MediaFile`, `OutputFormat`, `QualityProfile` and the payload of
  `ConversionResult` are opaque to the queue engine; they are modelled as
  `Nat` handles.
-/

namespace BMC

/-- `ConversionStatus` from `conversion.types.ts`. -/
inductive ConversionStatus where
  | queued
  | initializing
  | converting
  | finalizing
  | completed
  | failed
  | cancelled
deriving DecidableEq, Repr

/-- `ConversionErrorType` from `conversion.types.ts` (the enum members the
queue engine can produce or store). -/
inductive ConversionErrorType where
  | validationError
  | unsupportedFormat
  | browserNotSupported
  | invalidFile
  | outOfMemory
  | mediabunnyError
  | cancelled
  | unknownError
deriving DecidableEq, Repr

/-- A JavaScript `Error` value as the queue stores it: either a structured
`ConversionError (type, userMessage)` or a plain `Error(message)`. -/
inductive JsError where
  | conversionError (typ : ConversionErrorType) (userMessage : String)
  | plainError (message : String)
deriving DecidableEq, Repr

/-- `ConversionResult`: opaque output handle (blob/filename/size/url are not
inspected by the queue engine). -/
abbrev ConversionResult := Nat

/-- `ConversionJob` from `conversion.types.ts`. -/
structure ConversionJob where
  id : String
  sourceFile : Nat
  targetFormat : Nat
  qualityProfile : Nat
  status : ConversionStatus
  progress : Nat
  error : Option JsError
  result : Option ConversionResult
  startedAt : Option Nat
  completedAt : Option Nat
  estimatedDuration : Option Nat
deriving DecidableEq, Repr

/-- `ConversionQueue` from `conversion.types.ts`. -/
structure ConversionQueue where
  jobs : List ConversionJob
  activeJob : Option ConversionJob
  maxConcurrent : Nat
deriving DecidableEq, Repr

/-- The hook's full mutable state: the `queue` React state, the
`processingRef` boolean, and the logical clock backing `new Date()`. -/
structure HookState where
  queue : ConversionQueue
  processing : Bool
  clock : Nat
deriving DecidableEq, Repr

/-- Initial hook state (`useState` initialiser at the top of the hook). -/
def initialState : HookState :=
  { queue := { jobs := [], activeJob := none, maxConcurrent := 1 }
    processing := false
    clock := 0 }

/-- A `Partial<ConversionJob>` as passed to `updateJob`: present keys
override, absent keys keep the record's value.  Only the fields the hook
ever updates are included. -/
structure JobUpdate where
  status : Option ConversionStatus
  progress : Option Nat
  error : Option (Option JsError)
  result : Option (Option ConversionResult)
  completedAt : Option (Option Nat)
deriving DecidableEq, Repr

/-- The empty partial update `{}`. -/
def JobUpdate.none : JobUpdate :=
  ⟨Option.none, Option.none, Option.none, Option.none, Option.none⟩

/-- JS spread `{ ...j, ...u }` for a partial update. -/
def applyUpdate (u : JobUpdate) (j : ConversionJob) : ConversionJob :=
  { j with
    status := u.status.getD j.status
    progress := u.progress.getD j.progress
    error := u.error.getD j.error
    result := u.result.getD j.result
    completedAt := u.completedAt.getD j.completedAt }

/-- `addJob`: append the job to the queue (no duplicate-id check exists in
the source). -/
def addJob (job : ConversionJob) (s : HookState) : HookState :=
  { s with queue := { s.queue with jobs := s.queue.jobs ++ [job] } }

/-- `addJobs`: append several jobs in one state update.  (The `autoStart`
flag only requests a later `startQueue` call from the effect hook; in the
operation model below an auto-start is represented by an explicit
`startQueue` step.) -/
def addJobs (jobs : List ConversionJob) (s : HookState) : HookState :=
  { s with queue := { s.queue with jobs := s.queue.jobs ++ jobs } }

/-- `removeJob`: drop every job with the id, and clear `activeJob` if it
refers to that id. -/
def removeJob (jobId : String) (s : HookState) : HookState :=
  { s with queue :=
    { s.queue with
      jobs := s.queue.jobs.filter (fun j => ¬(j.id = jobId))
      activeJob :=
        match s.queue.activeJob with
        | some a => if a.id = jobId then none else some a
        | none => none } }

/-- `updateJob`: merge the partial update into every job whose id matches,
and into the `activeJob` copy when its id matches. -/
def updateJob (jobId : String) (u : JobUpdate) (q : ConversionQueue) :
    ConversionQueue :=
  { q with
    jobs := q.jobs.map (fun j => if j.id = jobId then applyUpdate u j else j)
    activeJob :=
      match q.activeJob with
      | some a => if a.id = jobId then some (applyUpdate u a) else some a
      | none => none }

/-- `clearCompleted`: remove all jobs with status `completed`. -/
def clearCompleted (s : HookState) : HookState :=
  { s with queue :=
    { s.queue with
      jobs := s.queue.jobs.filter
        (fun j => ¬(j.status = ConversionStatus.completed)) } }

/-- `clearAll`: reset the queue to its initial value and clear the
processing flag. -/
def clearAll (s : HookState) : HookState :=
  { s with
    queue := { jobs := [], activeJob := none, maxConcurrent := 1 }
    processing := false }

/-- The update applied by `cancelJob`: status `cancelled`, a
`ConversionError(CANCELLED, ...)` stored in `error`, and `completedAt`
stamped. -/
def cancelUpdate (now : Nat) : JobUpdate :=
  { status := some ConversionStatus.cancelled
    progress := Option.none
    error := some (some (JsError.conversionError ConversionErrorType.cancelled
      "Conversion was cancelled by user."))
    result := Option.none
    completedAt := some (some now) }

/-- `cancelJob`: if no job has the id, return (no state change).  Otherwise
(after a best-effort `cancelService` call for `initializing`/`converting`
jobs, which does not touch the store) unconditionally apply `cancelUpdate`. -/
def cancelJob (jobId : String) (s : HookState) : HookState :=
  match s.queue.jobs.find? (fun j => j.id = jobId) with
  | Option.none => s
  | some _ =>
    { s with
      queue := updateJob jobId (cancelUpdate s.clock) s.queue
      clock := s.clock + 1 }

/-- Sequential `cancelJob` calls (the `for`/`await` loop inside
`cancelAll`), recording each intermediate state. -/
def cancelSeq (ids : List String) (s : HookState) : HookState × List HookState :=
  match ids with
  | [] => (s, [])
  | i :: rest =>
    let s' := cancelJob i s
    ((cancelSeq rest s').1, s' :: (cancelSeq rest s').2)

/-- `cancelAll` with its published intermediate states: cancel every job
whose status is `queued`, `initializing` or `converting` (note: not
`finalizing`), one `cancelJob` at a time, then clear the processing flag. -/
def cancelAllTrace (s : HookState) : HookState × List HookState :=
  let ids := (s.queue.jobs.filter (fun j =>
    j.status = ConversionStatus.queued ∨
    j.status = ConversionStatus.initializing ∨
    j.status = ConversionStatus.converting)).map (fun j => j.id)
  let sf := { (cancelSeq ids s).1 with processing := false }
  (sf, (cancelSeq ids s).2 ++ [sf])

/-- `cancelAll`: final state only. -/
def cancelAll (s : HookState) : HookState :=
  (cancelAllTrace s).1

/-! ## The scheduler loop (`startQueue`) -/

/-- One outcome of the external `convertService` call: a list of progress
percentages delivered through `onProgress`, then either a result or a thrown
error. -/
inductive EngineOutcome where
  | ok (progressEvents : List Nat) (result : ConversionResult)
  | err (progressEvents : List Nat) (e : JsError)

/-- The conversion-engine oracle.  `convertService` receives the job's
source file, target format and quality profile; since those live inside the
job record, the oracle consumes the job value the loop captured. -/
abbrev Engine := ConversionJob → EngineOutcome

/-- The `setQueue` callback at the top of each loop iteration, given that
`find?` selected `nj`: publish `nj` (its pre-update copy, exactly as the
source does) as `activeJob` and mark every job with its id `initializing`,
stamping `startedAt`. -/
def markInitializing (nj : ConversionJob) (now : Nat) (q : ConversionQueue) :
    ConversionQueue :=
  { q with
    activeJob := some nj
    jobs := q.jobs.map (fun j =>
      if j.id = nj.id
      then { j with status := ConversionStatus.initializing, startedAt := some now }
      else j) }

/-- Deliver the progress events one `updateJob` at a time, recording each
intermediate state. -/
def applyProgressEvents (jobId : String) (evs : List Nat) (s : HookState) :
    HookState × List HookState :=
  match evs with
  | [] => (s, [])
  | p :: rest =>
    let q' := updateJob jobId { JobUpdate.none with progress := some p } s.queue
    let s' := { s with queue := q' }
    ((applyProgressEvents jobId rest s').1,
      s' :: (applyProgressEvents jobId rest s').2)

/-- The update on success: `{status: completed, progress: 100, result,
completedAt}`. -/
def completedUpdate (res : ConversionResult) (now : Nat) : JobUpdate :=
  { status := some ConversionStatus.completed
    progress := some 100
    error := Option.none
    result := some (some res)
    completedAt := some (some now) }

/-- The update on engine failure: `{status: failed, error, completedAt}`. -/
def failedUpdate (e : JsError) (now : Nat) : JobUpdate :=
  { status := some ConversionStatus.failed
    progress := Option.none
    error := some (some e)
    result := Option.none
    completedAt := some (some now) }

/-- The `updateJob(id, {status: 'converting'})` state transition. -/
def convStep (jobId : String) (s : HookState) : HookState :=
  let q2 := updateJob jobId
    { JobUpdate.none with status := some ConversionStatus.converting } s.queue
  { s with queue := q2 }

/-- A settling `updateJob` (completed or failed), which also consumes one
`new Date()` tick. -/
def settleStep (jobId : String) (u : JobUpdate) (s : HookState) : HookState :=
  let q4 := updateJob jobId u s.queue
  { s with queue := q4, clock := s.clock + 1 }

/-- The `setQueue(prev => ({...prev, activeJob: null}))` transition. -/
def clearActive (s : HookState) : HookState :=
  let q5 := { s.queue with activeJob := none }
  { s with queue := q5 }

/-- The body of one loop iteration after `nj` has been marked
`initializing`: update to `converting`, run the engine relaying progress,
settle the job (`completed` or `failed`), then clear `activeJob`.  Returns
the final state and the list of intermediate states it published. -/
def processJob (eng : Engine) (nj : ConversionJob) (s : HookState) :
    HookState × List HookState :=
  let s2 := convStep nj.id s
  match eng nj with
  | EngineOutcome.ok evs res =>
    let s3 := (applyProgressEvents nj.id evs s2).1
    let s4 := settleStep nj.id (completedUpdate res s3.clock) s3
    let s5 := clearActive s4
    (s5, s2 :: (applyProgressEvents nj.id evs s2).2 ++ [s4, s5])
  | EngineOutcome.err evs e =>
    let s3 := (applyProgressEvents nj.id evs s2).1
    let s4 := settleStep nj.id (failedUpdate e s3.clock) s3
    let s5 := clearActive s4
    (s5, s2 :: (applyProgressEvents nj.id evs s2).2 ++ [s4, s5])

/-- One full iteration of the `while` loop, given the selected job `nj`:
mark it `initializing` and stamp `startedAt`, then run `processJob`. -/
def loopIter (eng : Engine) (nj : ConversionJob) (s : HookState) :
    HookState × List HookState :=
  let s1 := { s with
    queue := markInitializing nj s.clock s.queue
    clock := s.clock + 1 }
  ((processJob eng nj s1).1, s1 :: (processJob eng nj s1).2)

/-- The `while (true)` loop of `startQueue`, fuel-indexed.  Each iteration
selects the first job with status `queued` (`prev.jobs.find`), or exits when
there is none.  The fuel passed by `startQueue` always suffices because each
iteration strictly decreases the number of queued jobs
(`countQueued_loopIter_lt` below). -/
def startQueueLoop (eng : Engine) : Nat → HookState → HookState × List HookState
  | 0, s => (s, [])
  | fuel + 1, s =>
    match s.queue.jobs.find? (fun j => j.status = ConversionStatus.queued) with
    | Option.none => (s, [])
    | some nj =>
      let s5 := (loopIter eng nj s).1
      ((startQueueLoop eng fuel s5).1,
        (loopIter eng nj s).2 ++ (startQueueLoop eng fuel s5).2)

/-- Number of jobs with status `queued`. -/
def countQueued (jobs : List ConversionJob) : Nat :=
  jobs.countP (fun j => j.status = ConversionStatus.queued)

/-- `startQueue`: if the processing flag is set, return at once (no state
change, nothing published); otherwise set the flag, run the loop, and clear
the flag.  Returns the final state and the trace of every intermediate state
the call published (flag-set state first, flag-cleared state last). -/
def startQueue (eng : Engine) (s : HookState) : HookState × List HookState :=
  if s.processing then (s, [])
  else
    let s0 := { s with processing := true }
    let s1 := (startQueueLoop eng (countQueued s0.queue.jobs + 1) s0).1
    let sf := { s1 with processing := false }
    (sf, s0 :: ((startQueueLoop eng (countQueued s0.queue.jobs + 1) s0).2 ++ [sf]))

/-! ## Job construction and statistics -/

/-- Job construction at the submission boundary (`App.tsx`,
`handleConvertBatch`): a fresh record enters with status `queued`, zero
progress and all optional fields null. -/
def mkJob (id : String) (src tgt qp : Nat) : ConversionJob :=
  { id := id
    sourceFile := src
    targetFormat := tgt
    qualityProfile := qp
    status := ConversionStatus.queued
    progress := 0
    error := Option.none
    result := Option.none
    startedAt := Option.none
    completedAt := Option.none
    estimatedDuration := Option.none }

/-- `QueueStatistics` from `conversion.types.ts`. -/
structure QueueStatistics where
  totalJobs : Nat
  completedCount : Nat
  failedCount : Nat
  queuedCount : Nat
  activeCount : Nat
  overallProgress : Nat
  isProcessing : Bool
  isComplete : Bool
deriving DecidableEq, Repr

/-- JS `Math.round (a / b)` for non-negative operands, `b > 0`:
round-half-up. -/
def jsRoundDiv (a b : Nat) : Nat := (2 * a + b) / (2 * b)

/-- The `statistics` object computed in the hook body. -/
def statistics (s : HookState) : QueueStatistics :=
  { totalJobs := s.queue.jobs.length
    completedCount := (s.queue.jobs.filter
      (fun j => j.status = ConversionStatus.completed)).length
    failedCount := (s.queue.jobs.filter
      (fun j => j.status = ConversionStatus.failed)).length
    queuedCount := (s.queue.jobs.filter
      (fun j => j.status = ConversionStatus.queued)).length
    activeCount := (s.queue.jobs.filter (fun j =>
      j.status = ConversionStatus.initializing ∨
      j.status = ConversionStatus.converting ∨
      j.status = ConversionStatus.finalizing)).length
    overallProgress :=
      if 0 < s.queue.jobs.length
      then jsRoundDiv (s.queue.jobs.foldl (fun sum j => sum + j.progress) 0)
        s.queue.jobs.length
      else 0
    isProcessing := s.processing || s.queue.activeJob.isSome
    isComplete := decide (0 < s.queue.jobs.length) &&
      s.queue.jobs.all (fun j =>
        j.status = ConversionStatus.completed ∨
        j.status = ConversionStatus.failed) }

/-! ## The public-operation model

One `Op` is one call on the hook's caller-facing surface.  Submission ops
build their records through `mkJob`, exactly as the submission call sites in
the repository do.  An `autoStart` batch is represented by an `addJobs`
step followed by a `startQueue` step (the effect hook's call).  `applyOp`
returns the new quiescent state together with every intermediate store
state the call published. -/

inductive Op where
  | addJob (id : String) (src tgt qp : Nat)
  | addJobs (specs : List (String × Nat × Nat × Nat))
  | startQueue (eng : Engine)
  | cancelJob (id : String)
  | cancelAll
  | removeJob (id : String)
  | clearCompleted
  | clearAll

/-- Build the records of a batch submission. -/
def mkJobs (specs : List (String × Nat × Nat × Nat)) : List ConversionJob :=
  specs.map (fun sp => mkJob sp.1 sp.2.1 sp.2.2.1 sp.2.2.2)

/-- Apply one public operation: final state and published trace. -/
def applyOp (s : HookState) : Op → HookState × List HookState
  | Op.addJob id src tgt qp =>
    let s' := addJob (mkJob id src tgt qp) s
    (s', [s'])
  | Op.addJobs specs =>
    let s' := addJobs (mkJobs specs) s
    (s', [s'])
  | Op.startQueue eng => startQueue eng s
  | Op.cancelJob id =>
    let s' := cancelJob id s
    (s', [s'])
  | Op.cancelAll => cancelAllTrace s
  | Op.removeJob id =>
    let s' := removeJob id s
    (s', [s'])
  | Op.clearCompleted =>
    let s' := clearCompleted s
    (s', [s'])
  | Op.clearAll =>
    let s' := clearAll s
    (s', [s'])

/-- States reachable through sequences of public operations (quiescent
states: each operation has run to completion). -/
inductive Reachable : HookState → Prop where
  | init : Reachable initialState
  | step (s : HookState) (op : Op) : Reachable s → Reachable (applyOp s op).1

/-- States observable at any point: quiescent states plus every
intermediate state some operation publishes. -/
inductive Observable : HookState → Prop where
  | quiescent (s : HookState) : Reachable s → Observable s
  | mid (s : HookState) (op : Op) (t : HookState) :
      Reachable s → t ∈ (applyOp s op).2 → Observable t

/-- Freshness side condition on submissions: a submitted id is not already
in the store, and the ids of one batch are pairwise distinct
(`spec §3: an id is never reused by a different record`).  All other
operations are unrestricted. -/
def opFresh (s : HookState) : Op → Prop
  | Op.addJob id _ _ _ => id ∉ s.queue.jobs.map (fun j => j.id)
  | Op.addJobs specs =>
    (specs.map (fun sp => sp.1)).Nodup ∧
    ∀ i ∈ specs.map (fun sp => sp.1), i ∉ s.queue.jobs.map (fun j => j.id)
  | _ => True

/-- Reachability restricted to fresh-id submissions. -/
inductive ReachableF : HookState → Prop where
  | init : ReachableF initialState
  | step (s : HookState) (op : Op) :
      ReachableF s → opFresh s op → ReachableF (applyOp s op).1

/-- Observability restricted to fresh-id submissions. -/
inductive ObservableF : HookState → Prop where
  | quiescent (s : HookState) : ReachableF s → ObservableF s
  | mid (s : HookState) (op : Op) (t : HookState) :
      ReachableF s → opFresh s op → t ∈ (applyOp s op).2 → ObservableF t

/-! ## Invariant vocabulary -/

/-- A job is "in flight" when its status is `initializing`, `converting` or
`finalizing`. -/
def jobInFlight (j : ConversionJob) : Prop :=
  j.status = ConversionStatus.initializing ∨
  j.status = ConversionStatus.converting ∨
  j.status = ConversionStatus.finalizing

instance (j : ConversionJob) : Decidable (jobInFlight j) := by
  unfold jobInFlight; infer_instance

/-- Number of in-flight jobs. -/
def inFlight (jobs : List ConversionJob) : Nat :=
  jobs.countP (fun j => decide (jobInFlight j))

/-- Error/result discipline of one record as the code maintains it:
an error is attached only to `failed` or `cancelled` records, a result only
to `completed` records or to records cancelled after completing. -/
def errResOK (j : ConversionJob) : Prop :=
  (j.error ≠ Option.none →
    j.status = ConversionStatus.failed ∨ j.status = ConversionStatus.cancelled) ∧
  (j.result ≠ Option.none →
    j.status = ConversionStatus.completed ∨ j.status = ConversionStatus.cancelled)

/-- Quiescent-state invariant: distinct ids, nothing in flight, error/result
discipline for every record. -/
def QuietInv (s : HookState) : Prop :=
  (s.queue.jobs.map (fun j => j.id)).Nodup ∧
  inFlight s.queue.jobs = 0 ∧
  ∀ j ∈ s.queue.jobs, errResOK j

/-- Observable-state invariant: at most one record in flight, error/result
discipline for every record. -/
def MidInv (s : HookState) : Prop :=
  inFlight s.queue.jobs ≤ 1 ∧ ∀ j ∈ s.queue.jobs, errResOK j

/-! ## Infrastructure: id-matching maps

Every job-list mutation the hook performs (`markInitializing` and every
`updateJob`) rewrites exactly the records whose id matches, leaving the
rest untouched.  `mapMatch` captures that shape. -/

/-- Rewrite the id-matching records of a list. -/
def mapMatch (id : String) (g : ConversionJob → ConversionJob)
    (l : List ConversionJob) : List ConversionJob :=
  l.map (fun j => if j.id = id then g j else j)

theorem updateJob_jobs (id : String) (u : JobUpdate) (q : ConversionQueue) :
    (updateJob id u q).jobs = mapMatch id (applyUpdate u) q.jobs := rfl

/-- The per-record rewrite `markInitializing` applies to id-matching jobs. -/
def markFn (c : Nat) (j : ConversionJob) : ConversionJob :=
  { j with status := ConversionStatus.initializing, startedAt := some c }

theorem markInitializing_jobs (nj : ConversionJob) (c : Nat)
    (q : ConversionQueue) :
    (markInitializing nj c q).jobs = mapMatch nj.id (markFn c) q.jobs := rfl

theorem mapMatch_length (id : String) (g : ConversionJob → ConversionJob)
    (l : List ConversionJob) : (mapMatch id g l).length = l.length :=
  List.length_map l _

theorem mapMatch_ids (id : String) (g : ConversionJob → ConversionJob)
    (hg : ∀ j, (g j).id = j.id) (l : List ConversionJob) :
    (mapMatch id g l).map (fun j => j.id) = l.map (fun j => j.id) := by
  induction l with
  | nil => rfl
  | cons a l ih =>
    simp only [mapMatch, List.map_cons] at ih ⊢
    rw [ih]
    by_cases ha : a.id = id
    · rw [if_pos ha, hg]
    · rw [if_neg ha]

theorem mapMatch_get (id : String) (g : ConversionJob → ConversionJob)
    (l : List ConversionJob) (i : Nat) (h : i < l.length)
    (h' : i < (mapMatch id g l).length) :
    (mapMatch id g l).get ⟨i, h'⟩ =
      if (l.get ⟨i, h⟩).id = id then g (l.get ⟨i, h⟩) else l.get ⟨i, h⟩ := by
  simp [mapMatch]

theorem mem_mapMatch (id : String) (g : ConversionJob → ConversionJob)
    (l : List ConversionJob) (j' : ConversionJob)
    (hj' : j' ∈ mapMatch id g l) :
    ∃ j ∈ l, j' = if j.id = id then g j else j := by
  rcases List.mem_map.mp hj' with ⟨j, hj, hje⟩
  exact ⟨j, hj, hje.symm⟩

theorem mapMatch_mapMatch (id : String)
    (g₁ g₂ : ConversionJob → ConversionJob) (hg₁ : ∀ j, (g₁ j).id = j.id)
    (l : List ConversionJob) :
    mapMatch id g₂ (mapMatch id g₁ l) = mapMatch id (fun j => g₂ (g₁ j)) l := by
  induction l with
  | nil => rfl
  | cons a l ih =>
    simp only [mapMatch, List.map_cons] at ih ⊢
    rw [ih]
    by_cases ha : a.id = id
    · rw [if_pos ha, if_pos ha, if_pos (by rw [hg₁]; exact ha)]
    · rw [if_neg ha, if_neg ha, if_neg ha]

theorem mapMatch_id_fun (id : String) (l : List ConversionJob) :
    mapMatch id (fun j => j) l = l := by
  induction l with
  | nil => rfl
  | cons a l ih =>
    simp only [mapMatch, List.map_cons] at ih ⊢
    rw [ih, ite_self]

/-! ### Counting lemmas -/

theorem countQueued_eq_zero (l : List ConversionJob) :
    countQueued l = 0 ↔ ∀ j ∈ l, ¬(j.status = ConversionStatus.queued) := by
  simp [countQueued, List.countP_eq_zero]

theorem find?_queued_eq_none (l : List ConversionJob)
    (h : countQueued l = 0) :
    l.find? (fun j => j.status = ConversionStatus.queued) = Option.none := by
  rw [List.find?_eq_none]
  intro j hj
  simpa using (countQueued_eq_zero l).mp h j hj

theorem countQueued_mapMatch_le (id : String)
    (g : ConversionJob → ConversionJob)
    (hg : ∀ j, ¬((g j).status = ConversionStatus.queued))
    (l : List ConversionJob) :
    countQueued (mapMatch id g l) ≤ countQueued l := by
  induction l with
  | nil => exact Nat.le_refl _
  | cons a l ih =>
    simp only [mapMatch, List.map_cons, countQueued, List.countP_cons] at ih ⊢
    by_cases ha : a.id = id
    · rw [if_pos ha]
      have hz : (decide ((g a).status = ConversionStatus.queued)) = false := by
        simpa using hg a
      rw [hz]
      simp only [Bool.false_eq_true, if_false]
      omega
    · rw [if_neg ha]
      omega

theorem countQueued_mapMatch_lt (id : String)
    (g : ConversionJob → ConversionJob)
    (hg : ∀ j, ¬((g j).status = ConversionStatus.queued))
    (l : List ConversionJob) (j : ConversionJob) (hj : j ∈ l)
    (hid : j.id = id) (hq : j.status = ConversionStatus.queued) :
    countQueued (mapMatch id g l) < countQueued l := by
  induction l with
  | nil => cases hj
  | cons a l ih =>
    simp only [mapMatch, List.map_cons, countQueued, List.countP_cons] at ih ⊢
    rcases List.mem_cons.mp hj with rfl | hj'
    · rw [if_pos hid]
      have hga : (decide ((g j).status = ConversionStatus.queued)) = false := by
        simpa using hg j
      have hq' : (decide (j.status = ConversionStatus.queued)) = true := by
        simpa using hq
      rw [hga, hq']
      have := countQueued_mapMatch_le id g hg l
      simp only [countQueued, mapMatch] at this
      simp only [Bool.false_eq_true, if_false, if_pos trivial]
      omega
    · have := ih hj'
      by_cases ha : a.id = id
      · rw [if_pos ha]
        have hga : (decide ((g a).status = ConversionStatus.queued)) = false := by
          simpa using hg a
        rw [hga]
        simp only [Bool.false_eq_true, if_false]
        omega
      · rw [if_neg ha]
        omega

theorem countQueued_mapMatch_eq (id : String)
    (g : ConversionJob → ConversionJob)
    (hg : ∀ j, (g j).status = j.status) (l : List ConversionJob) :
    countQueued (mapMatch id g l) = countQueued l := by
  induction l with
  | nil => rfl
  | cons a l ih =>
    simp only [mapMatch, List.map_cons, countQueued, List.countP_cons] at ih ⊢
    by_cases ha : a.id = id
    · rw [if_pos ha, ih, hg]
    · rw [if_neg ha, ih]

theorem inFlight_eq_zero (l : List ConversionJob) :
    inFlight l = 0 ↔ ∀ j ∈ l, ¬ jobInFlight j := by
  simp [inFlight, List.countP_eq_zero]

/-- Under distinct ids, at most one record carries a given id. -/
theorem countId_le_one (x : String) (l : List ConversionJob)
    (hN : (l.map (fun j => j.id)).Nodup) :
    l.countP (fun j => decide (j.id = x)) ≤ 1 := by
  induction l with
  | nil => exact Nat.zero_le _
  | cons a l ih =>
    simp only [List.map_cons, List.nodup_cons] at hN
    rw [List.countP_cons]
    by_cases hax : a.id = x
    · have hzero : l.countP (fun j => decide (j.id = x)) = 0 := by
        rw [List.countP_eq_zero]
        intro j hj
        simp only [decide_eq_true_eq]
        intro hjx
        exact hN.1 (hax ▸ hjx ▸ List.mem_map_of_mem (fun j => j.id) hj)
      simp [hzero, hax]
    · have hz : (decide (a.id = x)) = false := by simpa using hax
      rw [hz]
      simp only [Bool.false_eq_true, if_false, Nat.add_zero]
      exact ih hN.2

/-- If every in-flight record carries the id `x` and ids are distinct, at
most one record is in flight. -/
theorem inFlight_le_one_of_flight_only (x : String) (l : List ConversionJob)
    (hN : (l.map (fun j => j.id)).Nodup)
    (h : ∀ j ∈ l, jobInFlight j → j.id = x) :
    inFlight l ≤ 1 := by
  refine le_trans ?_ (countId_le_one x l hN)
  refine List.countP_mono_left ?_
  intro j hj hf
  simp only [decide_eq_true_eq] at hf ⊢
  exact h j hj hf

/-! ### Specification of one loop iteration

Every state the iteration publishes rewrites only the records matching the
selected id; `TouchedMid` describes such a record while the engine call is
pending, `TouchedDone` after the job has settled. -/

/-- Mid-iteration shape of a touched record: same id, untouched error and
result, in flight. -/
def TouchedMid (j j' : ConversionJob) : Prop :=
  j'.id = j.id ∧ j'.error = j.error ∧ j'.result = j.result ∧ jobInFlight j'

/-- Settled shape of a touched record, by engine branch. -/
def TouchedDone (eng : Engine) (nj : ConversionJob) (j j' : ConversionJob) :
    Prop :=
  j'.id = j.id ∧
  match eng nj with
  | EngineOutcome.ok _ res =>
    j'.status = ConversionStatus.completed ∧ j'.error = j.error ∧
    j'.result = some res ∧ j'.progress = 100 ∧ ∃ c, j'.completedAt = some c
  | EngineOutcome.err _ e =>
    j'.status = ConversionStatus.failed ∧ j'.error = some e ∧
    j'.result = j.result ∧ ∃ c, j'.completedAt = some c

theorem TouchedDone.not_queued {eng nj j j'} (h : TouchedDone eng nj j j') :
    ¬(j'.status = ConversionStatus.queued) := by
  rcases h with ⟨-, h⟩
  cases heng : eng nj with
  | ok evs res => rw [heng] at h; rw [h.1]; intro hc; cases hc
  | err evs e => rw [heng] at h; rw [h.1]; intro hc; cases hc

theorem TouchedDone.not_inFlight {eng nj j j'} (h : TouchedDone eng nj j j') :
    ¬ jobInFlight j' := by
  rcases h with ⟨-, h⟩
  cases heng : eng nj with
  | ok evs res =>
    rw [heng] at h
    rw [jobInFlight, h.1]
    rintro (hc | hc | hc) <;> cases hc
  | err evs e =>
    rw [heng] at h
    rw [jobInFlight, h.1]
    rintro (hc | hc | hc) <;> cases hc

theorem TouchedDone.settled {eng nj j j'} (h : TouchedDone eng nj j j') :
    j'.status = ConversionStatus.completed ∨
    j'.status = ConversionStatus.failed := by
  rcases h with ⟨-, h⟩
  cases heng : eng nj with
  | ok evs res => rw [heng] at h; exact Or.inl h.1
  | err evs e => rw [heng] at h; exact Or.inr h.1

/-- Field-preservation shape of one `onProgress` update: everything except
`progress` is kept. -/
def ProgressOnly (j j' : ConversionJob) : Prop :=
  j'.id = j.id ∧ j'.status = j.status ∧ j'.error = j.error ∧
  j'.result = j.result ∧ j'.startedAt = j.startedAt ∧
  j'.completedAt = j.completedAt

theorem ProgressOnly.refl (j : ConversionJob) : ProgressOnly j j :=
  ⟨rfl, rfl, rfl, rfl, rfl, rfl⟩

theorem ProgressOnly.trans {a b c : ConversionJob}
    (h₁ : ProgressOnly a b) (h₂ : ProgressOnly b c) : ProgressOnly a c :=
  ⟨h₂.1.trans h₁.1, h₂.2.1.trans h₁.2.1, h₂.2.2.1.trans h₁.2.2.1,
    h₂.2.2.2.1.trans h₁.2.2.2.1, h₂.2.2.2.2.1.trans h₁.2.2.2.2.1,
    h₂.2.2.2.2.2.trans h₁.2.2.2.2.2⟩

/-- The rewrite of a single progress callback. -/
def progressFn (p : Nat) : ConversionJob → ConversionJob :=
  applyUpdate { JobUpdate.none with progress := some p }

theorem progressFn_progressOnly (p : Nat) (j : ConversionJob) :
    ProgressOnly j (progressFn p j) :=
  ⟨rfl, rfl, rfl, rfl, rfl, rfl⟩

/-- The state after delivering a single progress percentage. -/
def progressStep (id : String) (p : Nat) (s : HookState) : HookState :=
  { s with queue :=
    updateJob id { JobUpdate.none with progress := some p } s.queue }

theorem applyProgressEvents_cons (id : String) (p : Nat) (rest : List Nat)
    (s : HookState) :
    applyProgressEvents id (p :: rest) s =
      ((applyProgressEvents id rest (progressStep id p s)).1,
        progressStep id p s ::
          (applyProgressEvents id rest (progressStep id p s)).2) := rfl

theorem progressStep_jobs (id : String) (p : Nat) (s : HookState) :
    (progressStep id p s).queue.jobs =
      mapMatch id (progressFn p) s.queue.jobs := rfl

/-- Effect of the whole progress-event sequence: the final state and every
intermediate state rewrite only id-matching records, changing nothing but
`progress`; clock, flag and `maxConcurrent` are untouched. -/
theorem applyProgressEvents_spec (id : String) (evs : List Nat) :
    ∀ s : HookState,
      (∃ G, (applyProgressEvents id evs s).1.queue.jobs =
          mapMatch id G s.queue.jobs ∧
        (applyProgressEvents id evs s).1.clock = s.clock ∧
        (applyProgressEvents id evs s).1.processing = s.processing ∧
        (applyProgressEvents id evs s).1.queue.maxConcurrent =
          s.queue.maxConcurrent ∧
        ∀ j, ProgressOnly j (G j)) ∧
      ∀ t ∈ (applyProgressEvents id evs s).2,
        ∃ G, t.queue.jobs = mapMatch id G s.queue.jobs ∧
          ∀ j, ProgressOnly j (G j) := by
  induction evs with
  | nil =>
    intro s
    refine ⟨⟨fun j => j, (mapMatch_id_fun id _).symm, rfl, rfl, rfl,
      fun j => ProgressOnly.refl j⟩, ?_⟩
    intro t ht
    simp [applyProgressEvents] at ht
  | cons p rest ih =>
    intro s
    have hGid : ∀ j : ConversionJob, (progressFn p j).id = j.id := fun j => rfl
    rw [applyProgressEvents_cons]
    constructor
    · rcases (ih (progressStep id p s)).1 with ⟨G, hjobs, hclock, hproc, hmax, hG⟩
      refine ⟨fun j => G (progressFn p j), ?_, hclock, hproc, hmax, ?_⟩
      · rw [hjobs, progressStep_jobs]
        exact mapMatch_mapMatch id (progressFn p) G hGid s.queue.jobs
      · intro j
        exact (progressFn_progressOnly p j).trans (hG (progressFn p j))
    · intro t ht
      rcases List.mem_cons.mp ht with rfl | ht'
      · exact ⟨progressFn p, rfl, fun j => progressFn_progressOnly p j⟩
      · rcases (ih (progressStep id p s)).2 t ht' with ⟨G, hjobs, hG⟩
        refine ⟨fun j => G (progressFn p j), ?_, ?_⟩
        · rw [hjobs, progressStep_jobs]
          exact mapMatch_mapMatch id (progressFn p) G hGid s.queue.jobs
        · intro j
          exact (progressFn_progressOnly p j).trans (hG (progressFn p j))

/-- The rewrite that moves a record to `converting`. -/
def convFn : ConversionJob → ConversionJob :=
  applyUpdate { JobUpdate.none with status := some ConversionStatus.converting }

theorem convFn_id (j : ConversionJob) : (convFn j).id = j.id := rfl

theorem convStep_jobs (jobId : String) (s : HookState) :
    (convStep jobId s).queue.jobs = mapMatch jobId convFn s.queue.jobs := rfl

theorem settleStep_jobs (jobId : String) (u : JobUpdate) (s : HookState) :
    (settleStep jobId u s).queue.jobs =
      mapMatch jobId (applyUpdate u) s.queue.jobs := rfl

/-- `processJob` spec: the final state settles exactly the id-matching
records (per the engine branch) and clears `activeJob`; every intermediate
state touches only id-matching records, which stay in flight with error and
result untouched until the settling update. -/
theorem processJob_spec (eng : Engine) (nj : ConversionJob) (s : HookState) :
    (∃ G, (processJob eng nj s).1.queue.jobs = mapMatch nj.id G s.queue.jobs ∧
      (processJob eng nj s).1.queue.activeJob = none ∧
      (processJob eng nj s).1.queue.maxConcurrent = s.queue.maxConcurrent ∧
      (processJob eng nj s).1.processing = s.processing ∧
      ∀ j, TouchedDone eng nj j (G j)) ∧
    ∀ t ∈ (processJob eng nj s).2,
      ∃ G, t.queue.jobs = mapMatch nj.id G s.queue.jobs ∧
        ∀ j, TouchedMid j (G j) ∨ TouchedDone eng nj j (G j) := by
  obtain ⟨⟨Gp, hj3, hc3, hp3, hm3, hGp⟩, htr⟩ :=
    applyProgressEvents_spec nj.id
      (match eng nj with
        | EngineOutcome.ok evs _ => evs
        | EngineOutcome.err evs _ => evs) (convStep nj.id s)
  have hidGpC : ∀ j : ConversionJob, (Gp (convFn j)).id = j.id :=
    fun j => ((hGp (convFn j)).1).trans (convFn_id j)
  have hjobs3 : (applyProgressEvents nj.id
      (match eng nj with
        | EngineOutcome.ok evs _ => evs
        | EngineOutcome.err evs _ => evs) (convStep nj.id s)).1.queue.jobs =
      mapMatch nj.id (fun j => Gp (convFn j)) s.queue.jobs := by
    rw [hj3, convStep_jobs]
    exact mapMatch_mapMatch nj.id convFn Gp convFn_id s.queue.jobs
  cases heng : eng nj with
  | ok evs res =>
    rw [heng] at hj3 hc3 hp3 hm3 htr hjobs3
    simp only [processJob, heng]
    constructor
    · refine ⟨fun j => applyUpdate
        (completedUpdate res (applyProgressEvents nj.id evs
          (convStep nj.id s)).1.clock) (Gp (convFn j)), ?_, rfl, hm3, hp3, ?_⟩
      · rw [show (clearActive (settleStep nj.id
            (completedUpdate res (applyProgressEvents nj.id evs
              (convStep nj.id s)).1.clock)
            (applyProgressEvents nj.id evs
              (convStep nj.id s)).1)).queue.jobs =
          mapMatch nj.id (applyUpdate (completedUpdate res
            (applyProgressEvents nj.id evs (convStep nj.id s)).1.clock))
            (applyProgressEvents nj.id evs (convStep nj.id s)).1.queue.jobs
          from rfl]
        rw [hjobs3]
        exact mapMatch_mapMatch nj.id _ _ hidGpC s.queue.jobs
      · intro j
        refine ⟨hidGpC j, ?_⟩
        rw [heng]
        exact ⟨rfl, ((hGp (convFn j)).2.2.1).trans rfl, rfl, rfl, _, rfl⟩
    · intro t ht
      rcases List.mem_cons.mp ht with rfl | ht'
      · exact ⟨convFn, convStep_jobs nj.id s, fun j =>
          Or.inl ⟨rfl, rfl, rfl, Or.inr (Or.inl rfl)⟩⟩
      rcases List.mem_append.mp ht' with ht3 | hlast
      · rcases htr t ht3 with ⟨G, hjobs, hG⟩
        refine ⟨fun j => G (convFn j), ?_, ?_⟩
        · rw [hjobs, convStep_jobs]
          exact mapMatch_mapMatch nj.id convFn G convFn_id s.queue.jobs
        · intro j
          refine Or.inl ⟨((hG (convFn j)).1).trans (convFn_id j),
            (hG (convFn j)).2.2.1, (hG (convFn j)).2.2.2.1, ?_⟩
          rw [jobInFlight, (hG (convFn j)).2.1]
          exact Or.inr (Or.inl rfl)
      · have hdone : ∀ t' ∈ [settleStep nj.id
            (completedUpdate res (applyProgressEvents nj.id evs
              (convStep nj.id s)).1.clock)
            (applyProgressEvents nj.id evs (convStep nj.id s)).1,
          clearActive (settleStep nj.id
            (completedUpdate res (applyProgressEvents nj.id evs
              (convStep nj.id s)).1.clock)
            (applyProgressEvents nj.id evs (convStep nj.id s)).1)],
            ∃ G, t'.queue.jobs = mapMatch nj.id G s.queue.jobs ∧
              ∀ j, TouchedMid j (G j) ∨ TouchedDone eng nj j (G j) := by
          intro t' ht'
          refine ⟨fun j => applyUpdate
            (completedUpdate res (applyProgressEvents nj.id evs
              (convStep nj.id s)).1.clock) (Gp (convFn j)), ?_, ?_⟩
          · rcases List.mem_cons.mp ht' with rfl | ht''
            · rw [settleStep_jobs, hjobs3]
              exact mapMatch_mapMatch nj.id _ _ hidGpC s.queue.jobs
            rcases List.mem_cons.mp ht'' with rfl | hnil
            · rw [show (clearActive (settleStep nj.id
                  (completedUpdate res (applyProgressEvents nj.id evs
                    (convStep nj.id s)).1.clock)
                  (applyProgressEvents nj.id evs
                    (convStep nj.id s)).1)).queue.jobs =
                (settleStep nj.id
                  (completedUpdate res (applyProgressEvents nj.id evs
                    (convStep nj.id s)).1.clock)
                  (applyProgressEvents nj.id evs
                    (convStep nj.id s)).1).queue.jobs from rfl]
              rw [settleStep_jobs, hjobs3]
              exact mapMatch_mapMatch nj.id _ _ hidGpC s.queue.jobs
            · cases hnil
          · intro j
            refine Or.inr ⟨hidGpC j, ?_⟩
            rw [heng]
            exact ⟨rfl, ((hGp (convFn j)).2.2.1).trans rfl, rfl, rfl, _, rfl⟩
        exact hdone t hlast
  | err evs e =>
    rw [heng] at hj3 hc3 hp3 hm3 htr hjobs3
    simp only [processJob, heng]
    constructor
    · refine ⟨fun j => applyUpdate
        (failedUpdate e (applyProgressEvents nj.id evs
          (convStep nj.id s)).1.clock) (Gp (convFn j)), ?_, rfl, hm3, hp3, ?_⟩
      · rw [show (clearActive (settleStep nj.id
            (failedUpdate e (applyProgressEvents nj.id evs
              (convStep nj.id s)).1.clock)
            (applyProgressEvents nj.id evs
              (convStep nj.id s)).1)).queue.jobs =
          mapMatch nj.id (applyUpdate (failedUpdate e
            (applyProgressEvents nj.id evs (convStep nj.id s)).1.clock))
            (applyProgressEvents nj.id evs (convStep nj.id s)).1.queue.jobs
          from rfl]
        rw [hjobs3]
        exact mapMatch_mapMatch nj.id _ _ hidGpC s.queue.jobs
      · intro j
        refine ⟨hidGpC j, ?_⟩
        rw [heng]
        exact ⟨rfl, rfl, ((hGp (convFn j)).2.2.2.1).trans rfl, _, rfl⟩
    · intro t ht
      rcases List.mem_cons.mp ht with rfl | ht'
      · exact ⟨convFn, convStep_jobs nj.id s, fun j =>
          Or.inl ⟨rfl, rfl, rfl, Or.inr (Or.inl rfl)⟩⟩
      rcases List.mem_append.mp ht' with ht3 | hlast
      · rcases htr t ht3 with ⟨G, hjobs, hG⟩
        refine ⟨fun j => G (convFn j), ?_, ?_⟩
        · rw [hjobs, convStep_jobs]
          exact mapMatch_mapMatch nj.id convFn G convFn_id s.queue.jobs
        · intro j
          refine Or.inl ⟨((hG (convFn j)).1).trans (convFn_id j),
            (hG (convFn j)).2.2.1, (hG (convFn j)).2.2.2.1, ?_⟩
          rw [jobInFlight, (hG (convFn j)).2.1]
          exact Or.inr (Or.inl rfl)
      · have hdone : ∀ t' ∈ [settleStep nj.id
            (failedUpdate e (applyProgressEvents nj.id evs
              (convStep nj.id s)).1.clock)
            (applyProgressEvents nj.id evs (convStep nj.id s)).1,
          clearActive (settleStep nj.id
            (failedUpdate e (applyProgressEvents nj.id evs
              (convStep nj.id s)).1.clock)
            (applyProgressEvents nj.id evs (convStep nj.id s)).1)],
            ∃ G, t'.queue.jobs = mapMatch nj.id G s.queue.jobs ∧
              ∀ j, TouchedMid j (G j) ∨ TouchedDone eng nj j (G j) := by
          intro t' ht'
          refine ⟨fun j => applyUpdate
            (failedUpdate e (applyProgressEvents nj.id evs
              (convStep nj.id s)).1.clock) (Gp (convFn j)), ?_, ?_⟩
          · rcases List.mem_cons.mp ht' with rfl | ht''
            · rw [settleStep_jobs, hjobs3]
              exact mapMatch_mapMatch nj.id _ _ hidGpC s.queue.jobs
            rcases List.mem_cons.mp ht'' with rfl | hnil
            · rw [show (clearActive (settleStep nj.id
                  (failedUpdate e (applyProgressEvents nj.id evs
                    (convStep nj.id s)).1.clock)
                  (applyProgressEvents nj.id evs
                    (convStep nj.id s)).1)).queue.jobs =
                (settleStep nj.id
                  (failedUpdate e (applyProgressEvents nj.id evs
                    (convStep nj.id s)).1.clock)
                  (applyProgressEvents nj.id evs
                    (convStep nj.id s)).1).queue.jobs from rfl]
              rw [settleStep_jobs, hjobs3]
              exact mapMatch_mapMatch nj.id _ _ hidGpC s.queue.jobs
            · cases hnil
          · intro j
            refine Or.inr ⟨hidGpC j, ?_⟩
            rw [heng]
            exact ⟨rfl, rfl, ((hGp (convFn j)).2.2.2.1).trans rfl, _, rfl⟩
        exact hdone t hlast

theorem markFn_id (c : Nat) (j : ConversionJob) : (markFn c j).id = j.id := rfl

theorem TouchedDone.comp_markFn {eng : Engine} {nj : ConversionJob} {c : Nat}
    {j j' : ConversionJob} (h : TouchedDone eng nj (markFn c j) j') :
    TouchedDone eng nj j j' := by
  rcases h with ⟨hid, h⟩
  refine ⟨hid.trans (markFn_id c j), ?_⟩
  cases heng : eng nj with
  | ok evs res =>
    rw [heng] at h
    exact ⟨h.1, h.2.1.trans rfl, h.2.2.1, h.2.2.2.1, h.2.2.2.2⟩
  | err evs e =>
    rw [heng] at h
    exact ⟨h.1, h.2.1, h.2.2.1.trans rfl, h.2.2.2⟩

theorem touchedMid_comp_markFn {c : Nat} {j j' : ConversionJob}
    (h : TouchedMid (markFn c j) j') : TouchedMid j j' :=
  ⟨h.1.trans (markFn_id c j), h.2.1.trans rfl, h.2.2.1.trans rfl, h.2.2.2⟩

/-- The state right after the selecting `setQueue` of an iteration. -/
def markStep (nj : ConversionJob) (s : HookState) : HookState :=
  { s with
    queue := markInitializing nj s.clock s.queue
    clock := s.clock + 1 }

theorem loopIter_eq (eng : Engine) (nj : ConversionJob) (s : HookState) :
    loopIter eng nj s =
      ((processJob eng nj (markStep nj s)).1,
        markStep nj s :: (processJob eng nj (markStep nj s)).2) := rfl

theorem markStep_jobs (nj : ConversionJob) (s : HookState) :
    (markStep nj s).queue.jobs =
      mapMatch nj.id (markFn s.clock) s.queue.jobs := rfl

/-- One whole iteration: the final state settles exactly the id-matching
records and clears `activeJob`; every published state rewrites only
id-matching records, in flight until settled. -/
theorem loopIter_spec (eng : Engine) (nj : ConversionJob) (s : HookState) :
    (∃ G, (loopIter eng nj s).1.queue.jobs = mapMatch nj.id G s.queue.jobs ∧
      (loopIter eng nj s).1.queue.activeJob = none ∧
      (loopIter eng nj s).1.queue.maxConcurrent = s.queue.maxConcurrent ∧
      (loopIter eng nj s).1.processing = s.processing ∧
      ∀ j, TouchedDone eng nj j (G j)) ∧
    ∀ t ∈ (loopIter eng nj s).2,
      ∃ G, t.queue.jobs = mapMatch nj.id G s.queue.jobs ∧
        ∀ j, TouchedMid j (G j) ∨ TouchedDone eng nj j (G j) := by
  obtain ⟨⟨G, hjobs, hact, hmax, hproc, hG⟩, htr⟩ :=
    processJob_spec eng nj (markStep nj s)
  rw [loopIter_eq]
  constructor
  · refine ⟨fun j => G (markFn s.clock j), ?_, hact, hmax, hproc, ?_⟩
    · rw [hjobs, markStep_jobs]
      exact mapMatch_mapMatch nj.id (markFn s.clock) G
        (markFn_id s.clock) s.queue.jobs
    · intro j
      exact TouchedDone.comp_markFn (hG (markFn s.clock j))
  · intro t ht
    rcases List.mem_cons.mp ht with rfl | ht'
    · refine ⟨markFn s.clock, markStep_jobs nj s, fun j => Or.inl ?_⟩
      exact ⟨rfl, rfl, rfl, Or.inl rfl⟩
    · rcases htr t ht' with ⟨G', hjobs', hG'⟩
      refine ⟨fun j => G' (markFn s.clock j), ?_, ?_⟩
      · rw [hjobs', markStep_jobs]
        exact mapMatch_mapMatch nj.id (markFn s.clock) G'
          (markFn_id s.clock) s.queue.jobs
      · intro j
        rcases hG' (markFn s.clock j) with hm | hd
        · exact Or.inl (touchedMid_comp_markFn hm)
        · exact Or.inr (TouchedDone.comp_markFn hd)

/-! ### Loop-level lemmas -/

theorem loopIter_countQueued_lt (eng : Engine) (nj : ConversionJob)
    (s : HookState)
    (hfind : s.queue.jobs.find?
      (fun j => j.status = ConversionStatus.queued) = some nj) :
    countQueued (loopIter eng nj s).1.queue.jobs <
      countQueued s.queue.jobs := by
  obtain ⟨⟨G, hjobs, -, -, -, hG⟩, -⟩ := loopIter_spec eng nj s
  rw [hjobs]
  exact countQueued_mapMatch_lt nj.id G (fun j => (hG j).not_queued)
    s.queue.jobs nj (List.mem_of_find?_eq_some hfind) rfl
    (by simpa using List.find?_some hfind)

theorem startQueueLoop_complete (eng : Engine) : ∀ fuel (s : HookState),
    countQueued s.queue.jobs < fuel →
    countQueued (startQueueLoop eng fuel s).1.queue.jobs = 0 := by
  intro fuel
  induction fuel with
  | zero => intro s h; omega
  | succ n ih =>
    intro s h
    cases hfind : s.queue.jobs.find?
        (fun j => j.status = ConversionStatus.queued) with
    | none =>
      simp only [startQueueLoop, hfind]
      rw [countQueued_eq_zero]
      intro j hj
      have := List.find?_eq_none.mp hfind j hj
      simpa using this
    | some nj =>
      simp only [startQueueLoop, hfind]
      apply ih
      have hlt := loopIter_countQueued_lt eng nj s hfind
      omega

theorem startQueueLoop_length (eng : Engine) : ∀ fuel (s : HookState),
    (startQueueLoop eng fuel s).1.queue.jobs.length = s.queue.jobs.length := by
  intro fuel
  induction fuel with
  | zero => intro s; rfl
  | succ n ih =>
    intro s
    cases hfind : s.queue.jobs.find?
        (fun j => j.status = ConversionStatus.queued) with
    | none => simp only [startQueueLoop, hfind]
    | some nj =>
      simp only [startQueueLoop, hfind]
      rw [ih]
      obtain ⟨⟨G, hjobs, -, -, -, -⟩, -⟩ := loopIter_spec eng nj s
      rw [hjobs]
      exact mapMatch_length nj.id G s.queue.jobs

/-- Default record used by positional (`getD`) statements. -/
def defaultJob : ConversionJob := mkJob "" 0 0 0

theorem mapMatch_getD (id : String) (g : ConversionJob → ConversionJob)
    (l : List ConversionJob) (i : Nat) (h : i < l.length) :
    (mapMatch id g l).getD i defaultJob =
      if (l.getD i defaultJob).id = id
      then g (l.getD i defaultJob) else l.getD i defaultJob := by
  induction l generalizing i with
  | nil => cases h
  | cons a l ih =>
    cases i with
    | zero => rfl
    | succ k =>
      have hk : k < l.length := Nat.lt_of_succ_lt_succ h
      have hrec := ih k hk
      simp only [mapMatch, List.map_cons, List.getD_cons_succ] at hrec ⊢
      exact hrec

theorem startQueueLoop_succ_none (eng : Engine) (n : Nat) (s : HookState)
    (hfind : s.queue.jobs.find?
      (fun j => j.status = ConversionStatus.queued) = Option.none) :
    startQueueLoop eng (n + 1) s = (s, []) := by
  simp [startQueueLoop, hfind]

theorem startQueueLoop_succ_some (eng : Engine) (n : Nat) (s : HookState)
    (nj : ConversionJob)
    (hfind : s.queue.jobs.find?
      (fun j => j.status = ConversionStatus.queued) = some nj) :
    startQueueLoop eng (n + 1) s =
      ((startQueueLoop eng n (loopIter eng nj s).1).1,
        (loopIter eng nj s).2 ++
          (startQueueLoop eng n (loopIter eng nj s).1).2) := by
  simp [startQueueLoop, hfind]

/-- Positional frame of the loop: every slot either keeps its record
unchanged or holds a settled (`completed`/`failed`) record. -/
theorem startQueueLoop_frame (eng : Engine) : ∀ fuel (s : HookState)
    (i : Nat), i < s.queue.jobs.length →
    (startQueueLoop eng fuel s).1.queue.jobs.getD i defaultJob =
      s.queue.jobs.getD i defaultJob ∨
    ((startQueueLoop eng fuel s).1.queue.jobs.getD i defaultJob).status =
      ConversionStatus.completed ∨
    ((startQueueLoop eng fuel s).1.queue.jobs.getD i defaultJob).status =
      ConversionStatus.failed := by
  intro fuel
  induction fuel with
  | zero => intro s i h; exact Or.inl rfl
  | succ n ih =>
    intro s i h
    cases hfind : s.queue.jobs.find?
        (fun j => j.status = ConversionStatus.queued) with
    | none =>
      rw [startQueueLoop_succ_none eng n s hfind]
      exact Or.inl rfl
    | some nj =>
      rw [startQueueLoop_succ_some eng n s nj hfind]
      obtain ⟨⟨G, hjobs, -, -, -, hG⟩, -⟩ := loopIter_spec eng nj s
      have hlen5 : i < (loopIter eng nj s).1.queue.jobs.length := by
        rw [hjobs, mapMatch_length]; exact h
      have hstep : (loopIter eng nj s).1.queue.jobs.getD i defaultJob =
            s.queue.jobs.getD i defaultJob ∨
          ((loopIter eng nj s).1.queue.jobs.getD i defaultJob).status =
            ConversionStatus.completed ∨
          ((loopIter eng nj s).1.queue.jobs.getD i defaultJob).status =
            ConversionStatus.failed := by
        rw [hjobs, mapMatch_getD nj.id G s.queue.jobs i h]
        by_cases hid : (s.queue.jobs.getD i defaultJob).id = nj.id
        · rw [if_pos hid]
          exact Or.inr (hG (s.queue.jobs.getD i defaultJob)).settled
        · rw [if_neg hid]
          exact Or.inl rfl
      rcases ih (loopIter eng nj s).1 i hlen5 with hmide | hmids
      · rcases hstep with hstepe | hsteps
        · exact Or.inl (hmide.trans hstepe)
        · rw [hmide]
          exact Or.inr hsteps
      · exact Or.inr hmids

/-! ### Invariant preservation -/

theorem errResOK_clean {j : ConversionJob} (he : j.error = Option.none)
    (hr : j.result = Option.none) : errResOK j :=
  ⟨fun hne => absurd he hne, fun hnr => absurd hr hnr⟩

/-- A queued record satisfying the discipline has no error and no result. -/
theorem queued_clean {j : ConversionJob} (hok : errResOK j)
    (hq : j.status = ConversionStatus.queued) :
    j.error = Option.none ∧ j.result = Option.none := by
  constructor
  · by_cases h : j.error = Option.none
    · exact h
    · rcases hok.1 h with hf | hc
      · rw [hq] at hf; cases hf
      · rw [hq] at hc; cases hc
  · by_cases h : j.result = Option.none
    · exact h
    · rcases hok.2 h with hf | hc
      · rw [hq] at hf; cases hf
      · rw [hq] at hc; cases hc

theorem errResOK_of_done {eng : Engine} {nj j j' : ConversionJob}
    (h : TouchedDone eng nj j j') (he : j.error = Option.none)
    (hr : j.result = Option.none) : errResOK j' := by
  rcases h with ⟨-, h⟩
  cases heng : eng nj with
  | ok evs res =>
    rw [heng] at h
    refine ⟨fun hne => ?_, fun _ => Or.inl h.1⟩
    rw [h.2.1, he] at hne
    exact absurd rfl hne
  | err evs e =>
    rw [heng] at h
    refine ⟨fun _ => Or.inl h.1, fun hnr => ?_⟩
    rw [h.2.2.1, hr] at hnr
    exact absurd rfl hnr

theorem errResOK_of_mid {j j' : ConversionJob} (h : TouchedMid j j')
    (he : j.error = Option.none) (hr : j.result = Option.none) :
    errResOK j' := by
  refine ⟨fun hne => ?_, fun hnr => ?_⟩
  · rw [h.2.1, he] at hne
    exact absurd rfl hne
  · rw [h.2.2.1, hr] at hnr
    exact absurd rfl hnr

theorem nodup_unique_id {l : List ConversionJob}
    (hN : (l.map (fun j => j.id)).Nodup) {a b : ConversionJob}
    (ha : a ∈ l) (hb : b ∈ l) (hid : a.id = b.id) : a = b :=
  List.inj_on_of_nodup_map hN ha hb hid

theorem QuietInv.mid {s : HookState} (h : QuietInv s) : MidInv s :=
  ⟨by rw [h.2.1]; omega, h.2.2⟩

/-- An iteration on a quiescent invariant state keeps the invariant and
every published state satisfies `MidInv`. -/
theorem loopIter_inv (eng : Engine) (nj : ConversionJob) (s : HookState)
    (hfind : s.queue.jobs.find?
      (fun j => j.status = ConversionStatus.queued) = some nj)
    (hI : QuietInv s) :
    QuietInv (loopIter eng nj s).1 ∧
    ∀ t ∈ (loopIter eng nj s).2, MidInv t := by
  obtain ⟨hN, hF, hE⟩ := hI
  have hmem : nj ∈ s.queue.jobs := List.mem_of_find?_eq_some hfind
  have hq : nj.status = ConversionStatus.queued := by
    simpa using List.find?_some hfind
  obtain ⟨hne, hnr⟩ := queued_clean (hE nj hmem) hq
  obtain ⟨⟨G, hjobs, hact, hmax, hproc, hG⟩, htr⟩ := loopIter_spec eng nj s
  have hGid : ∀ j, (G j).id = j.id := fun j => (hG j).1
  constructor
  · refine ⟨?_, ?_, ?_⟩
    · rw [hjobs, mapMatch_ids nj.id G hGid]
      exact hN
    · rw [hjobs]
      refine (inFlight_eq_zero _).mpr ?_
      intro j' hj'
      rcases mem_mapMatch _ _ _ _ hj' with ⟨j, hj, hj'e⟩
      by_cases hid : j.id = nj.id
      · rw [hj'e, if_pos hid]
        exact (hG j).not_inFlight
      · rw [hj'e, if_neg hid]
        exact (inFlight_eq_zero _).mp hF j hj
    · rw [hjobs]
      intro j' hj'
      rcases mem_mapMatch _ _ _ _ hj' with ⟨j, hj, hj'e⟩
      by_cases hid : j.id = nj.id
      · have hjn : j = nj := nodup_unique_id hN hj hmem hid
        rw [hj'e, if_pos hid]
        exact errResOK_of_done (hG j) (hjn ▸ hne) (hjn ▸ hnr)
      · rw [hj'e, if_neg hid]
        exact hE j hj
  · intro t ht
    rcases htr t ht with ⟨G', hjobs', hG'⟩
    have hG'id : ∀ j, (G' j).id = j.id := by
      intro j
      rcases hG' j with h | h
      · exact h.1
      · exact h.1
    constructor
    · rw [hjobs']
      refine inFlight_le_one_of_flight_only nj.id _ ?_ ?_
      · rw [mapMatch_ids nj.id G' hG'id]
        exact hN
      · intro j' hj' hf
        rcases mem_mapMatch _ _ _ _ hj' with ⟨j, hj, hj'e⟩
        by_cases hid : j.id = nj.id
        · rw [hj'e, if_pos hid, hG'id j]
          exact hid
        · rw [hj'e, if_neg hid] at hf
          exact absurd hf ((inFlight_eq_zero _).mp hF j hj)
    · rw [hjobs']
      intro j' hj'
      rcases mem_mapMatch _ _ _ _ hj' with ⟨j, hj, hj'e⟩
      by_cases hid : j.id = nj.id
      · have hjn : j = nj := nodup_unique_id hN hj hmem hid
        rw [hj'e, if_pos hid]
        rcases hG' j with h | h
        · exact errResOK_of_mid h (hjn ▸ hne) (hjn ▸ hnr)
        · exact errResOK_of_done h (hjn ▸ hne) (hjn ▸ hnr)
      · rw [hj'e, if_neg hid]
        exact hE j hj

theorem startQueueLoop_inv (eng : Engine) : ∀ fuel (s : HookState),
    QuietInv s →
    QuietInv (startQueueLoop eng fuel s).1 ∧
    ∀ t ∈ (startQueueLoop eng fuel s).2, MidInv t := by
  intro fuel
  induction fuel with
  | zero =>
    intro s hI
    exact ⟨hI, by intro t ht; cases ht⟩
  | succ n ih =>
    intro s hI
    cases hfind : s.queue.jobs.find?
        (fun j => j.status = ConversionStatus.queued) with
    | none =>
      rw [startQueueLoop_succ_none eng n s hfind]
      exact ⟨hI, by intro t ht; cases ht⟩
    | some nj =>
      rw [startQueueLoop_succ_some eng n s nj hfind]
      obtain ⟨hq5, htr5⟩ := loopIter_inv eng nj s hfind hI
      obtain ⟨hqf, htrf⟩ := ih (loopIter eng nj s).1 hq5
      refine ⟨hqf, ?_⟩
      intro t ht
      rcases List.mem_append.mp ht with h | h
      · exact htr5 t h
      · exact htrf t h

theorem startQueue_inv (eng : Engine) (s : HookState) (hI : QuietInv s) :
    QuietInv (startQueue eng s).1 ∧
    ∀ t ∈ (startQueue eng s).2, MidInv t := by
  by_cases hp : s.processing = true
  · simp only [startQueue, if_pos hp]
    exact ⟨hI, by intro t ht; cases ht⟩
  · simp only [startQueue, if_neg hp]
    have hI0 : QuietInv { s with processing := true } := hI
    obtain ⟨hqf, htrf⟩ := startQueueLoop_inv eng
      (countQueued ({ s with processing := true } : HookState).queue.jobs + 1)
      { s with processing := true } hI0
    constructor
    · exact hqf
    · intro t ht
      rcases List.mem_cons.mp ht with rfl | ht'
      · exact hI0.mid
      rcases List.mem_append.mp ht' with h | h
      · exact htrf t h
      rcases List.mem_cons.mp h with rfl | hnil
      · exact QuietInv.mid hqf
      · cases hnil

theorem mkJob_status (id : String) (src tgt qp : Nat) :
    (mkJob id src tgt qp).status = ConversionStatus.queued := rfl

theorem mkJob_not_inFlight (id : String) (src tgt qp : Nat) :
    ¬ jobInFlight (mkJob id src tgt qp) := by
  rintro (h | h | h) <;> cases h

/-- Appending fresh queued records preserves the quiescent invariant. -/
theorem quiet_append (s : HookState) (new : List ConversionJob)
    (hI : QuietInv s)
    (hN' : (new.map (fun j => j.id)).Nodup)
    (hdisj : ∀ i ∈ new.map (fun j => j.id),
      i ∉ s.queue.jobs.map (fun j => j.id))
    (hshape : ∀ j ∈ new, j.status = ConversionStatus.queued ∧
      j.error = Option.none ∧ j.result = Option.none) :
    (((s.queue.jobs ++ new).map (fun j => j.id)).Nodup ∧
      inFlight (s.queue.jobs ++ new) = 0 ∧
      ∀ j ∈ s.queue.jobs ++ new, errResOK j) := by
  obtain ⟨hN, hF, hE⟩ := hI
  refine ⟨?_, ?_, ?_⟩
  · rw [List.map_append]
    refine List.Nodup.append hN hN' ?_
    intro a ha ha'
    exact hdisj a ha' ha
  · rw [inFlight, List.countP_append]
    have h1 : inFlight s.queue.jobs = 0 := hF
    have h2 : inFlight new = 0 := by
      refine (inFlight_eq_zero _).mpr ?_
      intro j hj
      intro hf
      rcases hf with h | h | h <;> rw [(hshape j hj).1] at h <;> cases h
    rw [inFlight] at h1 h2
    omega
  · intro j hj
    rcases List.mem_append.mp hj with h | h
    · exact hE j h
    · exact errResOK_clean (hshape j h).2.1 (hshape j h).2.2

theorem mkJobs_ids (specs : List (String × Nat × Nat × Nat)) :
    (mkJobs specs).map (fun j => j.id) = specs.map (fun sp => sp.1) := by
  induction specs with
  | nil => rfl
  | cons a l ih =>
    simp only [mkJobs, List.map_cons] at ih ⊢
    rw [ih]
    rfl

theorem mkJobs_shape (specs : List (String × Nat × Nat × Nat)) :
    ∀ j ∈ mkJobs specs, j.status = ConversionStatus.queued ∧
      j.error = Option.none ∧ j.result = Option.none := by
  intro j hj
  rcases List.mem_map.mp hj with ⟨sp, hsp, rfl⟩
  exact ⟨rfl, rfl, rfl⟩

theorem cancelJob_eq_none (jobId : String) (s : HookState)
    (hfind : s.queue.jobs.find? (fun j => j.id = jobId) = Option.none) :
    cancelJob jobId s = s := by
  simp [cancelJob, hfind]

theorem cancelJob_jobs_some (jobId : String) (s : HookState)
    (x : ConversionJob)
    (hfind : s.queue.jobs.find? (fun j => j.id = jobId) = some x) :
    (cancelJob jobId s).queue.jobs =
      mapMatch jobId (applyUpdate (cancelUpdate s.clock)) s.queue.jobs := by
  simp [cancelJob, hfind, updateJob_jobs]

theorem errResOK_cancelFn (c : Nat) (j : ConversionJob) :
    errResOK (applyUpdate (cancelUpdate c) j) :=
  ⟨fun _ => Or.inr rfl, fun _ => Or.inr rfl⟩

theorem cancelFn_not_inFlight (c : Nat) (j : ConversionJob) :
    ¬ jobInFlight (applyUpdate (cancelUpdate c) j) := by
  rintro (h | h | h) <;> cases h

theorem cancelJob_quiet (jobId : String) (s : HookState) (hI : QuietInv s) :
    QuietInv (cancelJob jobId s) := by
  cases hfind : s.queue.jobs.find? (fun j => j.id = jobId) with
  | none => rw [cancelJob_eq_none jobId s hfind]; exact hI
  | some x =>
    obtain ⟨hN, hF, hE⟩ := hI
    have hjobs := cancelJob_jobs_some jobId s x hfind
    refine ⟨?_, ?_, ?_⟩
    · rw [hjobs, mapMatch_ids jobId (applyUpdate (cancelUpdate s.clock))
        (fun j => rfl)]
      exact hN
    · rw [hjobs]
      refine (inFlight_eq_zero _).mpr ?_
      intro j' hj'
      rcases mem_mapMatch _ _ _ _ hj' with ⟨j, hj, hj'e⟩
      by_cases hid : j.id = jobId
      · rw [hj'e, if_pos hid]
        exact cancelFn_not_inFlight s.clock j
      · rw [hj'e, if_neg hid]
        exact (inFlight_eq_zero _).mp hF j hj
    · rw [hjobs]
      intro j' hj'
      rcases mem_mapMatch _ _ _ _ hj' with ⟨j, hj, hj'e⟩
      by_cases hid : j.id = jobId
      · rw [hj'e, if_pos hid]
        exact errResOK_cancelFn s.clock j
      · rw [hj'e, if_neg hid]
        exact hE j hj

theorem cancelSeq_inv : ∀ (ids : List String) (s : HookState),
    QuietInv s →
    QuietInv (cancelSeq ids s).1 ∧ ∀ t ∈ (cancelSeq ids s).2, MidInv t := by
  intro ids
  induction ids with
  | nil =>
    intro s hI
    exact ⟨hI, by intro t ht; cases ht⟩
  | cons i rest ih =>
    intro s hI
    have h1 : QuietInv (cancelJob i s) := cancelJob_quiet i s hI
    obtain ⟨hqf, htrf⟩ := ih (cancelJob i s) h1
    refine ⟨hqf, ?_⟩
    intro t ht
    rcases List.mem_cons.mp ht with rfl | ht'
    · exact h1.mid
    · exact htrf t ht'

theorem cancelAllTrace_inv (s : HookState) (hI : QuietInv s) :
    QuietInv (cancelAllTrace s).1 ∧
    ∀ t ∈ (cancelAllTrace s).2, MidInv t := by
  obtain ⟨hqf, htrf⟩ := cancelSeq_inv
    ((s.queue.jobs.filter (fun j =>
      j.status = ConversionStatus.queued ∨
      j.status = ConversionStatus.initializing ∨
      j.status = ConversionStatus.converting)).map (fun j => j.id)) s hI
  constructor
  · exact hqf
  · intro t ht
    rcases List.mem_append.mp ht with h | h
    · exact htrf t h
    rcases List.mem_cons.mp h with rfl | hnil
    · exact QuietInv.mid hqf
    · cases hnil

/-- Filtering the job list preserves the quiescent invariant. -/
theorem quiet_filter (l : List ConversionJob) (p : ConversionJob → Bool)
    (hN : (l.map (fun j => j.id)).Nodup) (hF : inFlight l = 0)
    (hE : ∀ j ∈ l, errResOK j) :
    ((l.filter p).map (fun j => j.id)).Nodup ∧
      inFlight (l.filter p) = 0 ∧ ∀ j ∈ l.filter p, errResOK j := by
  refine ⟨?_, ?_, ?_⟩
  · exact List.Nodup.sublist (List.Sublist.map _ (List.filter_sublist l)) hN
  · have hsub : List.Sublist (List.filter p l) l := @List.filter_sublist _ p l
    have := List.Sublist.countP_le (fun j => decide (jobInFlight j)) hsub
    rw [inFlight] at hF ⊢
    omega
  · intro j hj
    exact hE j (List.mem_of_mem_filter hj)

/-- Every public operation applied under the freshness side condition keeps
the quiescent invariant and publishes only `MidInv` states. -/
theorem applyOp_inv (s : HookState) (op : Op) (hI : QuietInv s)
    (hfr : opFresh s op) :
    QuietInv (applyOp s op).1 ∧ ∀ t ∈ (applyOp s op).2, MidInv t := by
  cases op with
  | addJob id src tgt qp =>
    have hfr' : id ∉ s.queue.jobs.map (fun j => j.id) := hfr
    have h := quiet_append s [mkJob id src tgt qp] hI (by simp)
      (by
        intro i hi
        have hieq : i = id := by simpa using hi
        rw [hieq]
        exact hfr')
      (by intro j hj; rcases List.mem_singleton.mp hj with rfl; exact ⟨rfl, rfl, rfl⟩)
    have hq : QuietInv (applyOp s (Op.addJob id src tgt qp)).1 := h
    refine ⟨hq, ?_⟩
    intro t ht
    rcases List.mem_singleton.mp ht with rfl
    exact hq.mid
  | addJobs specs =>
    have hfr' : (specs.map (fun sp => sp.1)).Nodup ∧
        ∀ i ∈ specs.map (fun sp => sp.1),
          i ∉ s.queue.jobs.map (fun j => j.id) := hfr
    have h := quiet_append s (mkJobs specs) hI
      (by rw [mkJobs_ids]; exact hfr'.1)
      (by rw [mkJobs_ids]; exact hfr'.2)
      (mkJobs_shape specs)
    have hq : QuietInv (applyOp s (Op.addJobs specs)).1 := h
    refine ⟨hq, ?_⟩
    intro t ht
    rcases List.mem_singleton.mp ht with rfl
    exact hq.mid
  | startQueue eng => exact startQueue_inv eng s hI
  | cancelJob id =>
    have hq : QuietInv (cancelJob id s) := cancelJob_quiet id s hI
    refine ⟨hq, ?_⟩
    intro t ht
    rcases List.mem_singleton.mp ht with rfl
    exact hq.mid
  | cancelAll => exact cancelAllTrace_inv s hI
  | removeJob id =>
    obtain ⟨hN, hF, hE⟩ := hI
    have h := quiet_filter s.queue.jobs
      (fun j => decide ¬(j.id = id)) hN hF hE
    have hq : QuietInv (removeJob id s) := h
    refine ⟨hq, ?_⟩
    intro t ht
    rcases List.mem_singleton.mp ht with rfl
    exact hq.mid
  | clearCompleted =>
    obtain ⟨hN, hF, hE⟩ := hI
    have h := quiet_filter s.queue.jobs
      (fun j => decide ¬(j.status = ConversionStatus.completed)) hN hF hE
    have hq : QuietInv (clearCompleted s) := h
    refine ⟨hq, ?_⟩
    intro t ht
    rcases List.mem_singleton.mp ht with rfl
    exact hq.mid
  | clearAll =>
    have hq : QuietInv (clearAll s) := by
      refine ⟨List.nodup_nil, rfl, ?_⟩
      intro j hj
      cases hj
    refine ⟨hq, ?_⟩
    intro t ht
    rcases List.mem_singleton.mp ht with rfl
    exact hq.mid

theorem reachableF_quiet {s : HookState} (h : ReachableF s) : QuietInv s := by
  induction h with
  | init =>
    refine ⟨List.nodup_nil, rfl, ?_⟩
    intro j hj
    cases hj
  | step s' op hr hfr ih => exact (applyOp_inv s' op ih hfr).1

theorem observableF_midInv {t : HookState} (h : ObservableF t) : MidInv t := by
  cases h with
  | quiescent s hr => exact (reachableF_quiet hr).mid
  | mid s op t hr hfr hmem =>
    exact (applyOp_inv s op (reachableF_quiet hr) hfr).2 t hmem

/-! ### `startQueue` top-level lemmas -/

theorem startQueue_processing (eng : Engine) (s : HookState)
    (hp : s.processing = true) : startQueue eng s = (s, []) := by
  simp [startQueue, hp]

theorem startQueue_fst_false (eng : Engine) (s : HookState)
    (hp : s.processing = false) :
    (startQueue eng s).1 =
      { (startQueueLoop eng (countQueued s.queue.jobs + 1)
          { s with processing := true }).1 with processing := false } := by
  simp [startQueue, hp]

theorem startQueue_complete (eng : Engine) (s : HookState)
    (hp : s.processing = false) :
    countQueued (startQueue eng s).1.queue.jobs = 0 := by
  rw [startQueue_fst_false eng s hp]
  exact startQueueLoop_complete eng (countQueued s.queue.jobs + 1)
    { s with processing := true } (Nat.lt_succ_self _)

theorem startQueue_no_queued (eng : Engine) (s : HookState)
    (hp : s.processing = false) (h0 : countQueued s.queue.jobs = 0) :
    (startQueue eng s).1 = s := by
  have hfind : ({ s with processing := true } :
      HookState).queue.jobs.find?
      (fun j => j.status = ConversionStatus.queued) = Option.none :=
    find?_queued_eq_none _ h0
  have hfuel : countQueued s.queue.jobs + 1 = 0 + 1 := by rw [h0]
  have hloop : startQueueLoop eng (countQueued s.queue.jobs + 1)
      { s with processing := true } = ({ s with processing := true }, []) := by
    rw [hfuel]
    exact startQueueLoop_succ_none eng 0 _ hfind
  rw [startQueue_fst_false eng s hp, hloop]
  obtain ⟨q, p, c⟩ := s
  simp only at hp
  rw [hp]
/-! ## Concrete scenario states used by counterexamples -/

/-- An engine oracle that always succeeds immediately. -/
def engOk : Engine := fun _ => EngineOutcome.ok [] 7

/-- One fresh submission. -/
def oneJobState : HookState := (applyOp initialState (Op.addJob "a" 0 0 0)).1

/-- Two submissions reusing the id `"a"` (the code accepts them). -/
def dupIdState : HookState := (applyOp oneJobState (Op.addJob "a" 1 1 1)).1

/-- The store state published right after the scheduler marks the selected
job `initializing`, in a run over the duplicate-id store. -/
def dupIdMidState : HookState :=
  ((applyOp dupIdState (Op.startQueue engOk)).2).getD 1 initialState

/-- Quiescent state after the single job of `oneJobState` has been driven
to `completed`. -/
def completedState : HookState := (applyOp oneJobState (Op.startQueue engOk)).1

/-- `completedState` after `cancelJob "a"`. -/
def cancelledCompletedState : HookState :=
  (applyOp completedState (Op.cancelJob "a")).1

/-- `oneJobState` after `cancelJob "a"` (cancelling a queued job). -/
def cancelledQueuedState : HookState :=
  (applyOp oneJobState (Op.cancelJob "a")).1

/-! ## Theorems -/

/-- C10: `clearAll()` resets the store to its initial shape (empty job
list, no active job, `maxConcurrent = 1`) and clears the processing flag,
so an immediately following statistics read yields `totalJobs = 0`,
`overallProgress = 0`, `isProcessing = false` and `isComplete = false`,
whatever state — including one with the processing flag still set — the
hook was in. -/
theorem clearAll_resets_state_and_statistics (s : HookState) :
    clearAll s =
      { queue := { jobs := [], activeJob := none, maxConcurrent := 1 }
        processing := false
        clock := s.clock } ∧
    statistics (clearAll s) =
      { totalJobs := 0, completedCount := 0, failedCount := 0,
        queuedCount := 0, activeCount := 0, overallProgress := 0,
        isProcessing := false, isComplete := false } :=
  ⟨rfl, rfl⟩

/-- C9: `isComplete` is true exactly when the job list is non-empty and
every record is `completed` or `failed`; any record in any other status —
in particular `cancelled` — forces it to `false`. -/
theorem isComplete_iff_nonempty_all_settled (s : HookState) :
    ((statistics s).isComplete = true ↔
      s.queue.jobs ≠ [] ∧ ∀ j ∈ s.queue.jobs,
        j.status = ConversionStatus.completed ∨
        j.status = ConversionStatus.failed) ∧
    (∀ j ∈ s.queue.jobs, j.status = ConversionStatus.cancelled →
      (statistics s).isComplete = false) := by
  have base : (statistics s).isComplete = true ↔
      s.queue.jobs ≠ [] ∧ ∀ j ∈ s.queue.jobs,
        j.status = ConversionStatus.completed ∨
        j.status = ConversionStatus.failed := by
    simp only [statistics, Bool.and_eq_true, decide_eq_true_eq,
      List.all_eq_true, List.length_pos]
  refine ⟨base, fun j hj hc => ?_⟩
  by_contra hne
  have htrue : (statistics s).isComplete = true := by
    cases h : (statistics s).isComplete with
    | true => rfl
    | false => exact absurd h hne
  have := (base.mp htrue).2 j hj
  rw [hc] at this
  rcases this with h | h <;> exact ConversionStatus.noConfusion h

/-- C5 counterexample: submitting a job whose id `"a"` is already present
does not fail and does not leave the queue unchanged — the duplicate is
appended as a second record with the same id. -/
theorem addJob_duplicate_id_appends :
    oneJobState.queue.jobs.map (fun j => j.id) = ["a"] ∧
    dupIdState.queue.jobs.map (fun j => j.id) = ["a", "a"] :=
  ⟨rfl, rfl⟩

/-- C5 (amended): `addJob` and `addJobs` append unconditionally — there is
no duplicate-id check and no `DuplicateIdError` anywhere in the hook, so a
reused id always yields a second record with the same id. -/
theorem addJob_appends_unconditionally (s : HookState) (job : ConversionJob)
    (jobs : List ConversionJob) :
    (addJob job s).queue.jobs = s.queue.jobs ++ [job] ∧
    (addJobs jobs s).queue.jobs = s.queue.jobs ++ jobs ∧
    (addJob job s).queue.activeJob = s.queue.activeJob ∧
    (addJob job s).processing = s.processing ∧
    (addJobs jobs s).queue.activeJob = s.queue.activeJob ∧
    (addJobs jobs s).processing = s.processing :=
  ⟨rfl, rfl, rfl, rfl, rfl, rfl⟩

/-- C8: at the failing input — a store holding the single queued job
`mkJob "a" 0 0 0` and an engine that succeeds — the scheduler's published
status history for the job is `queued, initializing, converting, completed,
completed, completed`: the job moves from `converting` directly to
`completed`, and no published state ever shows `finalizing`, contradicting
the documented success path `converting → finalizing → completed`. -/
theorem scheduler_skips_finalizing :
    ((applyOp oneJobState (Op.startQueue engOk)).2.map
      (fun t => (t.queue.jobs.head?).map (fun x => x.status))) =
      [some ConversionStatus.queued,
       some ConversionStatus.initializing,
       some ConversionStatus.converting,
       some ConversionStatus.completed,
       some ConversionStatus.completed,
       some ConversionStatus.completed] ∧
    ((applyOp oneJobState (Op.startQueue engOk)).2.all (fun t =>
      t.queue.jobs.all (fun x =>
        !(x.status = ConversionStatus.finalizing)))) = true :=
  ⟨rfl, rfl⟩

/-- C2 counterexample: the public operations accept duplicate ids, and the
scheduler then marks every record sharing the selected id at once: after
`addJob "a"`, `addJob "a"`, the state the loop publishes right after
claiming the first queued job is observable and has two records in flight. -/
theorem two_records_in_flight_observable :
    Observable dupIdMidState ∧ inFlight dupIdMidState.queue.jobs = 2 := by
  constructor
  · refine Observable.mid dupIdState (Op.startQueue engOk) dupIdMidState
      (Reachable.step oneJobState (Op.addJob "a" 1 1 1)
        (Reachable.step initialState (Op.addJob "a" 0 0 0) Reachable.init)) ?_
    decide
  · decide

/-- C6 counterexample: a cancelled record does carry an error — cancelling
the queued job `"a"` stores a `ConversionError(CANCELLED, ...)` on it. -/
theorem cancelled_record_has_error :
    Reachable cancelledQueuedState ∧
    (cancelledQueuedState.queue.jobs.map
      (fun j => (j.status, j.error))) =
      [(ConversionStatus.cancelled,
        some (JsError.conversionError ConversionErrorType.cancelled
          "Conversion was cancelled by user."))] := by
  refine ⟨?_, rfl⟩
  exact Reachable.step oneJobState (Op.cancelJob "a")
    (Reachable.step initialState (Op.addJob "a" 0 0 0) Reachable.init)

/-- C7 counterexample: `cancelJob` on a record that is already terminal is
not a no-op — the completed job `"a"` (status `completed`, result set) is
re-transitioned to `cancelled` with a cancellation error attached, its
`completedAt` restamped, while its stale result remains. -/
theorem cancelJob_mutates_terminal_record :
    Reachable cancelledCompletedState ∧
    (completedState.queue.jobs.map (fun j => (j.status, j.result))) =
      [(ConversionStatus.completed, some 7)] ∧
    (cancelledCompletedState.queue.jobs.map
      (fun j => (j.status, j.result, j.error))) =
      [(ConversionStatus.cancelled, some 7,
        some (JsError.conversionError ConversionErrorType.cancelled
          "Conversion was cancelled by user."))] := by
  refine ⟨?_, rfl, rfl⟩
  exact Reachable.step completedState (Op.cancelJob "a")
    (Reachable.step oneJobState (Op.startQueue engOk)
      (Reachable.step initialState (Op.addJob "a" 0 0 0) Reachable.init))



/-- C1: invoking `startQueue` while the processing flag is set returns at
once with no state change and publishes nothing; `startQueue` is idempotent
on the hook state; it never adds or removes records; and (when it does run)
every record that was queued is processed to a settled status — each job is
processed once, never twice. -/
theorem startQueue_idempotent_single_loop (eng : Engine) (s : HookState) :
    (s.processing = true → startQueue eng s = (s, [])) ∧
    (startQueue eng (startQueue eng s).1).1 = (startQueue eng s).1 ∧
    (startQueue eng s).1.queue.jobs.length = s.queue.jobs.length ∧
    (s.processing = false → ∀ i, i < s.queue.jobs.length →
      (s.queue.jobs.getD i defaultJob).status = ConversionStatus.queued →
      ((startQueue eng s).1.queue.jobs.getD i defaultJob).status =
        ConversionStatus.completed ∨
      ((startQueue eng s).1.queue.jobs.getD i defaultJob).status =
        ConversionStatus.failed) := by
  by_cases hp : s.processing = true
  · have h1 : startQueue eng s = (s, []) := startQueue_processing eng s hp
    refine ⟨fun _ => h1, ?_, ?_, ?_⟩
    · rw [h1, startQueue_processing eng s hp]
    · rw [h1]
    · intro hfalse
      rw [hp] at hfalse
      cases hfalse
  · have hp' : s.processing = false := by
      cases h : s.processing
      · rfl
      · exact absurd h hp
    have hzero := startQueue_complete eng s hp'
    have hfproc : (startQueue eng s).1.processing = false := by
      rw [startQueue_fst_false eng s hp']
    have hlen : (startQueue eng s).1.queue.jobs.length =
        s.queue.jobs.length := by
      rw [startQueue_fst_false eng s hp']
      exact startQueueLoop_length eng (countQueued s.queue.jobs + 1)
        { s with processing := true }
    refine ⟨fun h => absurd h hp, ?_, hlen, ?_⟩
    · exact startQueue_no_queued eng (startQueue eng s).1 hfproc hzero
    · intro _ i hi hq
      have hframe := startQueueLoop_frame eng (countQueued s.queue.jobs + 1)
        { s with processing := true } i hi
      have hgetD : (startQueue eng s).1.queue.jobs.getD i defaultJob =
          (startQueueLoop eng (countQueued s.queue.jobs + 1)
            { s with processing := true }).1.queue.jobs.getD i defaultJob := by
        rw [startQueue_fst_false eng s hp']
      rcases hframe with hsame | hdone
      · exfalso
        have hql : (startQueue eng s).1.queue.jobs.getD i defaultJob =
            s.queue.jobs.getD i defaultJob := by
          rw [hgetD]
          exact hsame
        have hi' : i < (startQueue eng s).1.queue.jobs.length := by
          rw [hlen]
          exact hi
        have hmem : (startQueue eng s).1.queue.jobs.getD i defaultJob ∈
            (startQueue eng s).1.queue.jobs := by
          rw [List.getD_eq_getElem _ defaultJob hi']
          exact List.get_mem _ i hi'
        have hpos : 0 < countQueued (startQueue eng s).1.queue.jobs := by
          rw [countQueued]
          refine List.countP_pos_iff.mpr ?_
          refine ⟨_, hmem, ?_⟩
          rw [hql]
          simpa using hq
        omega
      · rw [hgetD]
        exact hdone

/-- C1 witness: a concrete run — one queued job, flag initially clear — in
which the job settles and a repeated start changes nothing. -/
theorem startQueue_idempotent_single_loop_witness :
    oneJobState.processing = false ∧
    (0 < oneJobState.queue.jobs.length ∧
      (oneJobState.queue.jobs.getD 0 defaultJob).status =
        ConversionStatus.queued) ∧
    (((startQueue engOk oneJobState).1.queue.jobs.getD 0 defaultJob).status =
      ConversionStatus.completed ∨
     ((startQueue engOk oneJobState).1.queue.jobs.getD 0 defaultJob).status =
      ConversionStatus.failed) := by
  refine ⟨rfl, ⟨by decide, rfl⟩, ?_⟩
  exact (startQueue_idempotent_single_loop engOk oneJobState).2.2.2 rfl 0
    (by decide) rfl

/-- C2 (amended): for every state observable through public-operation
sequences whose submissions use fresh ids (no id reused while present — the
discipline the spec's data model assumes), at most one record is in flight.
Without that restriction the invariant fails (see the counterexample): the
code accepts duplicate ids and then marks every record sharing the selected
id at once. -/
theorem single_flight_with_distinct_ids (t : HookState)
    (h : ObservableF t) : inFlight t.queue.jobs ≤ 1 :=
  (observableF_midInv h).1

/-- The mid-loop state published right after the scheduler claims the only
queued job, in a fresh-id run. -/
def singleFlightMidState : HookState :=
  ((applyOp oneJobState (Op.startQueue engOk)).2).getD 1 initialState

/-- C2 witness: the amended invariant evaluated on a concrete observable
mid-loop state with one record in flight. -/
theorem single_flight_with_distinct_ids_witness :
    inFlight singleFlightMidState.queue.jobs ≤ 1 ∧
    inFlight singleFlightMidState.queue.jobs = 1 := by
  constructor
  · refine single_flight_with_distinct_ids singleFlightMidState ?_
    refine ObservableF.mid oneJobState (Op.startQueue engOk)
      singleFlightMidState ?_ trivial ?_
    · refine ReachableF.step initialState (Op.addJob "a" 0 0 0)
        ReachableF.init ?_
      show "a" ∉ initialState.queue.jobs.map (fun j => j.id)
      decide
    · decide
  · decide

/-- C6 (amended): in every state observable through fresh-id operation
sequences, a record's `error` is non-null only when its status is `failed`
or `cancelled` (cancellation attaches a `CANCELLED` conversion error), and
its `result` is non-null only when its status is `completed` or `cancelled`
(cancelling a completed record keeps its stale result). -/
theorem error_result_discipline (t : HookState) (h : ObservableF t) :
    ∀ j ∈ t.queue.jobs,
      (j.error ≠ Option.none → j.status = ConversionStatus.failed ∨
        j.status = ConversionStatus.cancelled) ∧
      (j.result ≠ Option.none → j.status = ConversionStatus.completed ∨
        j.status = ConversionStatus.cancelled) :=
  (observableF_midInv h).2

/-- C6 witness: the discipline evaluated on the concrete reachable state in
which a queued job was cancelled — its non-null error forces status
`failed` or `cancelled`. -/
theorem error_result_discipline_witness :
    (cancelledQueuedState.queue.jobs.getD 0 defaultJob).status =
      ConversionStatus.failed ∨
    (cancelledQueuedState.queue.jobs.getD 0 defaultJob).status =
      ConversionStatus.cancelled := by
  have hobs : ObservableF cancelledQueuedState := by
    refine ObservableF.quiescent cancelledQueuedState ?_
    refine ReachableF.step oneJobState (Op.cancelJob "a") ?_ trivial
    refine ReachableF.step initialState (Op.addJob "a" 0 0 0)
      ReachableF.init ?_
    show "a" ∉ initialState.queue.jobs.map (fun j => j.id)
    decide
  exact (error_result_discipline cancelledQueuedState hobs
    (cancelledQueuedState.queue.jobs.getD 0 defaultJob) (by decide)).1
    (by decide)

/-- C7 (amended): `cancelJob` is a no-op only when no record carries the
id.  When a record is present — whatever its status, terminal included —
every record with that id is set to `cancelled`, the cancellation error is
attached and `completedAt` restamped, while its `progress`, `result` and
`startedAt` are left unchanged. -/
theorem cancelJob_unconditional (jobId : String) (s : HookState) :
    (s.queue.jobs.find? (fun j => j.id = jobId) = Option.none →
      cancelJob jobId s = s) ∧
    ((∃ x, s.queue.jobs.find? (fun j => j.id = jobId) = some x) →
      ∀ i, i < s.queue.jobs.length →
        ((s.queue.jobs.getD i defaultJob).id = jobId →
          ((cancelJob jobId s).queue.jobs.getD i defaultJob).status =
            ConversionStatus.cancelled ∧
          ((cancelJob jobId s).queue.jobs.getD i defaultJob).error =
            some (JsError.conversionError ConversionErrorType.cancelled
              "Conversion was cancelled by user.") ∧
          ((cancelJob jobId s).queue.jobs.getD i defaultJob).completedAt =
            some s.clock ∧
          ((cancelJob jobId s).queue.jobs.getD i defaultJob).progress =
            (s.queue.jobs.getD i defaultJob).progress ∧
          ((cancelJob jobId s).queue.jobs.getD i defaultJob).result =
            (s.queue.jobs.getD i defaultJob).result ∧
          ((cancelJob jobId s).queue.jobs.getD i defaultJob).startedAt =
            (s.queue.jobs.getD i defaultJob).startedAt) ∧
        ((s.queue.jobs.getD i defaultJob).id ≠ jobId →
          (cancelJob jobId s).queue.jobs.getD i defaultJob =
            s.queue.jobs.getD i defaultJob)) := by
  constructor
  · exact cancelJob_eq_none jobId s
  · rintro ⟨x, hfind⟩ i hi
    have hjobs := cancelJob_jobs_some jobId s x hfind
    have hgd := mapMatch_getD jobId (applyUpdate (cancelUpdate s.clock))
      s.queue.jobs i hi
    constructor
    · intro hid
      rw [hjobs, hgd, if_pos hid]
      exact ⟨rfl, rfl, rfl, rfl, rfl, rfl⟩
    · intro hid
      rw [hjobs, hgd, if_neg hid]

/-- C7 witness: cancelling the completed record `"a"` — the amended
behaviour evaluated concretely: status flips to `cancelled`, the stale
result survives. -/
theorem cancelJob_unconditional_witness :
    ((cancelJob "a" completedState).queue.jobs.getD 0 defaultJob).status =
      ConversionStatus.cancelled ∧
    ((cancelJob "a" completedState).queue.jobs.getD 0 defaultJob).result =
      (completedState.queue.jobs.getD 0 defaultJob).result := by
  have h := (cancelJob_unconditional "a" completedState).2
    ⟨_, rfl⟩ 0 (by decide)
  exact ⟨(h.1 rfl).1, (h.1 rfl).2.2.2.2.1⟩

/-! ### FIFO selection -/

theorem touchedMid_not_queued {j j' : ConversionJob} (h : TouchedMid j j') :
    ¬(j'.status = ConversionStatus.queued) := by
  intro hq
  rcases h.2.2.2 with hs | hs | hs <;> rw [hq] at hs <;> cases hs

theorem nodup_ids_getD_ne (l : List ConversionJob)
    (hN : (l.map (fun j => j.id)).Nodup) (a b : Nat)
    (ha : a < l.length) (hb : b < l.length) (hne : a ≠ b) :
    ¬((l.getD a defaultJob).id = (l.getD b defaultJob).id) := by
  intro hid
  have hma : a < (l.map (fun j => j.id)).length := by
    rw [List.length_map]; exact ha
  have hmb : b < (l.map (fun j => j.id)).length := by
    rw [List.length_map]; exact hb
  have hga : (l.map (fun j => j.id)).get ⟨a, hma⟩ =
      (l.getD a defaultJob).id := by
    rw [List.getD_eq_getElem l defaultJob ha]
    simp
  have hgb : (l.map (fun j => j.id)).get ⟨b, hmb⟩ =
      (l.getD b defaultJob).id := by
    rw [List.getD_eq_getElem l defaultJob hb]
    simp
  have heq : (l.map (fun j => j.id)).get ⟨a, hma⟩ =
      (l.map (fun j => j.id)).get ⟨b, hmb⟩ := by
    rw [hga, hgb, hid]
  have := (List.Nodup.get_inj_iff hN).mp heq
  exact hne (by simpa using this)

/-- `find?` selects the earliest queued record: its position has no queued
record before it. -/
theorem find?_queued_first (l : List ConversionJob) (nj : ConversionJob)
    (hfind : l.find? (fun j => j.status = ConversionStatus.queued) = some nj) :
    ∃ k, k < l.length ∧ l.getD k defaultJob = nj ∧
      ∀ i, i < k →
        ¬((l.getD i defaultJob).status = ConversionStatus.queued) := by
  induction l with
  | nil => cases hfind
  | cons x l ih =>
    by_cases hx : x.status = ConversionStatus.queued
    · rw [List.find?_cons_of_pos l (by simpa using hx)] at hfind
      have hxe : x = nj := by simpa using hfind
      exact ⟨0, Nat.succ_pos _, hxe, fun i hi => absurd hi (Nat.not_lt_zero i)⟩
    · rw [List.find?_cons_of_neg l (by simpa using hx)] at hfind
      rcases ih hfind with ⟨k, hk, hget, hbefore⟩
      refine ⟨k + 1, Nat.succ_lt_succ hk, by simpa using hget, ?_⟩
      intro i hi
      cases i with
      | zero => simpa using hx
      | succ m =>
        have := hbefore m (Nat.lt_of_succ_lt_succ hi)
        simpa using this

/-- FIFO invariant through the loop: under distinct ids, a later queued
record never leaves `queued` while an earlier queued record still has it. -/
theorem startQueueLoop_fifo (eng : Engine) : ∀ fuel (s : HookState)
    (a b : Nat), a < b → b < s.queue.jobs.length →
    (s.queue.jobs.map (fun j => j.id)).Nodup →
    ((s.queue.jobs.getD a defaultJob).status = ConversionStatus.queued →
      (s.queue.jobs.getD b defaultJob).status = ConversionStatus.queued) →
    ((∀ t ∈ (startQueueLoop eng fuel s).2,
        (t.queue.jobs.getD a defaultJob).status = ConversionStatus.queued →
        (t.queue.jobs.getD b defaultJob).status = ConversionStatus.queued) ∧
      (((startQueueLoop eng fuel s).1.queue.jobs.getD a defaultJob).status =
          ConversionStatus.queued →
        ((startQueueLoop eng fuel s).1.queue.jobs.getD b defaultJob).status =
          ConversionStatus.queued)) := by
  intro fuel
  induction fuel with
  | zero =>
    intro s a b hab hb hN hP
    refine ⟨?_, hP⟩
    intro t ht
    cases ht
  | succ n ih =>
    intro s a b hab hb hN hP
    cases hfind : s.queue.jobs.find?
        (fun j => j.status = ConversionStatus.queued) with
    | none =>
      rw [startQueueLoop_succ_none eng n s hfind]
      refine ⟨?_, hP⟩
      intro t ht
      cases ht
    | some nj =>
      rcases find?_queued_first s.queue.jobs nj hfind with ⟨k, hk, hgetk, hbefore⟩
      have key : ∀ (t : HookState) (G : ConversionJob → ConversionJob),
          t.queue.jobs = mapMatch nj.id G s.queue.jobs →
          (∀ j, ¬((G j).status = ConversionStatus.queued)) →
          ((t.queue.jobs.getD a defaultJob).status =
              ConversionStatus.queued →
            (t.queue.jobs.getD b defaultJob).status =
              ConversionStatus.queued) := by
        intro t G hjobs hgnq hqa'
        have hgda := mapMatch_getD nj.id G s.queue.jobs a (lt_trans hab hb)
        have hgdb := mapMatch_getD nj.id G s.queue.jobs b hb
        rw [hjobs, hgda] at hqa'
        rw [hjobs, hgdb]
        by_cases hida : (s.queue.jobs.getD a defaultJob).id = nj.id
        · rw [if_pos hida] at hqa'
          exact absurd hqa' (hgnq _)
        · rw [if_neg hida] at hqa'
          have hsb : (s.queue.jobs.getD b defaultJob).status =
              ConversionStatus.queued := hP hqa'
          have hidb : ¬((s.queue.jobs.getD b defaultJob).id = nj.id) := by
            intro hid
            have hka : k ≤ a := by
              by_contra hlt
              push_neg at hlt
              exact (hbefore a hlt) hqa'
            have hbk : b ≠ k := by omega
            have hne := nodup_ids_getD_ne s.queue.jobs hN b k hb hk hbk
            rw [hgetk] at hne
            exact hne hid
          rw [if_neg hidb]
          exact hsb
      obtain ⟨⟨G, hjobs5, -, -, -, hG⟩, htr⟩ := loopIter_spec eng nj s
      have hGid : ∀ j, (G j).id = j.id := fun j => (hG j).1
      have hGnq : ∀ j, ¬((G j).status = ConversionStatus.queued) :=
        fun j => (hG j).not_queued
      have hb5 : b < (loopIter eng nj s).1.queue.jobs.length := by
        rw [hjobs5, mapMatch_length]; exact hb
      have hN5 : ((loopIter eng nj s).1.queue.jobs.map
          (fun j => j.id)).Nodup := by
        rw [hjobs5, mapMatch_ids nj.id G hGid]; exact hN
      have hP5 := key (loopIter eng nj s).1 G hjobs5 hGnq
      obtain ⟨ihtr, ihfin⟩ := ih (loopIter eng nj s).1 a b hab hb5 hN5 hP5
      rw [startQueueLoop_succ_some eng n s nj hfind]
      constructor
      · intro t ht
        rcases List.mem_append.mp ht with hmem | hmem
        · rcases htr t hmem with ⟨G', hjobs', hG'⟩
          refine key t G' hjobs' ?_
          intro j
          rcases hG' j with h | h
          · exact touchedMid_not_queued h
          · exact h.not_queued
        · exact ihtr t hmem
      · exact ihfin

theorem startQueue_trace_false (eng : Engine) (s : HookState)
    (hp : s.processing = false) :
    (startQueue eng s).2 =
      ({ s with processing := true } ::
        ((startQueueLoop eng (countQueued s.queue.jobs + 1)
            { s with processing := true }).2 ++
          [{ (startQueueLoop eng (countQueued s.queue.jobs + 1)
              { s with processing := true }).1 with processing := false }])) := by
  simp [startQueue, hp]

/-- The three-submission store that reuses id `"b"` around `"a"`. -/
def fifoDupState : HookState :=
  (applyOp (applyOp (applyOp initialState
    (Op.addJob "b" 0 0 0)).1 (Op.addJob "a" 0 0 0)).1 (Op.addJob "b" 1 1 1)).1

/-- The state the scheduler publishes right after claiming the first queued
job of `fifoDupState`. -/
def fifoDupMidState : HookState :=
  ((applyOp fifoDupState (Op.startQueue engOk)).2).getD 1 initialState

/-- C4 counterexample: with a duplicated id the FIFO consequence fails.
Records at positions 1 (`"a"`) and 2 (`"b"`, duplicate of position 0) are
both queued when the loop starts, yet the published state after the first
claim shows position 2 already `initializing` while position 1 is still
`queued`: the later-inserted record entered `initializing` first. -/
theorem fifo_violated_with_duplicate_ids :
    Observable fifoDupMidState ∧
    (fifoDupState.queue.jobs.getD 1 defaultJob).status =
      ConversionStatus.queued ∧
    (fifoDupState.queue.jobs.getD 2 defaultJob).status =
      ConversionStatus.queued ∧
    (fifoDupMidState.queue.jobs.getD 1 defaultJob).status =
      ConversionStatus.queued ∧
    (fifoDupMidState.queue.jobs.getD 2 defaultJob).status =
      ConversionStatus.initializing := by
  refine ⟨?_, rfl, rfl, rfl, rfl⟩
  refine Observable.mid fifoDupState (Op.startQueue engOk)
    fifoDupMidState ?_ ?_
  · exact Reachable.step _ (Op.addJob "b" 1 1 1)
      (Reachable.step _ (Op.addJob "a" 0 0 0)
        (Reachable.step initialState (Op.addJob "b" 0 0 0) Reachable.init))
  · decide

/-- C4 (amended): each loop iteration selects the earliest-inserted record
with status `queued` (first match in insertion order — never priority or
size); and, provided the records' ids are pairwise distinct, if record A
precedes record B and both are queued, then in every state `startQueue`
publishes B is still `queued` whenever A is — so A enters `initializing` no
later than B.  (With a duplicated id the scheduler marks every record
sharing the selected id and can promote a later record first.) -/
theorem fifo_selection_and_order (eng : Engine) (s : HookState) (a b : Nat)
    (hab : a < b) (hb : b < s.queue.jobs.length)
    (hN : (s.queue.jobs.map (fun j => j.id)).Nodup)
    (hqb : (s.queue.jobs.getD b defaultJob).status = ConversionStatus.queued) :
    (∀ (l : List ConversionJob) (nj : ConversionJob),
      l.find? (fun j => j.status = ConversionStatus.queued) = some nj →
      ∃ k, k < l.length ∧ l.getD k defaultJob = nj ∧
        ∀ i, i < k →
          ¬((l.getD i defaultJob).status = ConversionStatus.queued)) ∧
    ∀ t ∈ (startQueue eng s).2,
      (t.queue.jobs.getD a defaultJob).status = ConversionStatus.queued →
      (t.queue.jobs.getD b defaultJob).status = ConversionStatus.queued := by
  refine ⟨find?_queued_first, ?_⟩
  by_cases hp : s.processing = true
  · rw [startQueue_processing eng s hp]
    intro t ht
    cases ht
  · have hp' : s.processing = false := by
      cases h : s.processing
      · rfl
      · exact absurd h hp
    have hP0 : (({ s with processing := true } :
          HookState).queue.jobs.getD a defaultJob).status =
          ConversionStatus.queued →
        (({ s with processing := true } :
          HookState).queue.jobs.getD b defaultJob).status =
          ConversionStatus.queued := fun _ => hqb
    obtain ⟨hltr, hlfin⟩ := startQueueLoop_fifo eng
      (countQueued s.queue.jobs + 1) { s with processing := true } a b
      hab hb hN hP0
    rw [startQueue_trace_false eng s hp']
    intro t ht
    rcases List.mem_cons.mp ht with rfl | ht'
    · exact fun _ => hqb
    rcases List.mem_append.mp ht' with hmem | hmem
    · exact hltr t hmem
    rcases List.mem_cons.mp hmem with rfl | hnil
    · exact hlfin
    · cases hnil

/-- A fresh two-record store with distinct ids, used by witnesses. -/
def twoJobState : HookState :=
  (applyOp (applyOp initialState (Op.addJob "a" 0 0 0)).1
    (Op.addJob "b" 1 1 1)).1

/-- The first state `startQueue` publishes over the two-job store. -/
def fifoWitnessState : HookState :=
  ((startQueue engOk twoJobState).2).getD 0 initialState

/-- C4 witness: the FIFO theorem applied to the concrete two-job store at
the first published state, where job `"a"` (position 0) is still queued. -/
theorem fifo_selection_and_order_witness :
    (fifoWitnessState.queue.jobs.getD 1 defaultJob).status =
      ConversionStatus.queued :=
  (fifo_selection_and_order engOk twoJobState 0 1 (by decide) (by decide)
    (by decide) rfl).2 fifoWitnessState (by decide) rfl

theorem mapMatch_pair (id : String) (g : ConversionJob → ConversionJob)
    (x y : ConversionJob) :
    mapMatch id g [x, y] =
      [if x.id = id then g x else x, if y.id = id then g y else y] := rfl

/-- C3: with jobs `[A, B]` queued in order, the engine throwing on A and
succeeding on B, the loop marks A `failed` (error stored, `completedAt`
stamped, result untouched), clears the active job, and continues: B ends
`completed` with its result — B is not skipped and no exception escapes. -/
theorem engine_failure_isolated (eng : Engine) (s : HookState)
    (idA idB : String) (sa ta qa sb tb qb : Nat) (hne : ¬(idA = idB))
    (hjobs : s.queue.jobs = [mkJob idA sa ta qa, mkJob idB sb tb qb])
    (hp : s.processing = false)
    (evA : List Nat) (eA : JsError) (evB : List Nat) (rB : ConversionResult)
    (hengA : eng (mkJob idA sa ta qa) = EngineOutcome.err evA eA)
    (hengB : eng (mkJob idB sb tb qb) = EngineOutcome.ok evB rB) :
    ∃ A' B', (startQueue eng s).1.queue.jobs = [A', B'] ∧
      A'.id = idA ∧ A'.status = ConversionStatus.failed ∧
      A'.error = some eA ∧ A'.result = Option.none ∧
      (∃ c, A'.completedAt = some c) ∧
      B'.id = idB ∧ B'.status = ConversionStatus.completed ∧
      B'.result = some rB ∧ B'.progress = 100 ∧ B'.error = Option.none ∧
      (∃ c, B'.completedAt = some c) ∧
      (startQueue eng s).1.queue.activeJob = none ∧
      (startQueue eng s).1.processing = false := by
  have hfuel : countQueued s.queue.jobs + 1 = 0 + 1 + 1 + 1 := by
    rw [hjobs]
    rfl
  have hs0jobs : ({ s with processing := true } :
      HookState).queue.jobs = [mkJob idA sa ta qa, mkJob idB sb tb qb] := hjobs
  have hfind1 : ({ s with processing := true } :
      HookState).queue.jobs.find?
      (fun j => j.status = ConversionStatus.queued) =
      some (mkJob idA sa ta qa) := by
    rw [hs0jobs]
    exact List.find?_cons_of_pos _ rfl
  obtain ⟨⟨G₁, hjobs1, hact1, hmax1, hproc1, hG1⟩, -⟩ :=
    loopIter_spec eng (mkJob idA sa ta qa) { s with processing := true }
  obtain ⟨hid1, hdone1⟩ := hG1 (mkJob idA sa ta qa)
  rw [hengA] at hdone1
  have hjobs5 : (loopIter eng (mkJob idA sa ta qa)
      { s with processing := true }).1.queue.jobs =
      [G₁ (mkJob idA sa ta qa), mkJob idB sb tb qb] := by
    rw [hjobs1, hs0jobs, mapMatch_pair]
    rw [if_pos (show (mkJob idA sa ta qa).id = (mkJob idA sa ta qa).id
      from rfl)]
    rw [if_neg (show ¬((mkJob idB sb tb qb).id = (mkJob idA sa ta qa).id)
      from fun h => hne h.symm)]
  have hstA : (G₁ (mkJob idA sa ta qa)).status = ConversionStatus.failed :=
    hdone1.1
  have hfind2 : (loopIter eng (mkJob idA sa ta qa)
      { s with processing := true }).1.queue.jobs.find?
      (fun j => j.status = ConversionStatus.queued) =
      some (mkJob idB sb tb qb) := by
    rw [hjobs5]
    rw [List.find?_cons_of_neg _ (by rw [hstA]; decide)]
    exact List.find?_cons_of_pos _ rfl
  obtain ⟨⟨G₂, hjobs2, hact2, hmax2, hproc2, hG2⟩, -⟩ :=
    loopIter_spec eng (mkJob idB sb tb qb)
      (loopIter eng (mkJob idA sa ta qa) { s with processing := true }).1
  obtain ⟨hid2, hdone2⟩ := hG2 (mkJob idB sb tb qb)
  rw [hengB] at hdone2
  have hjobs6 : (loopIter eng (mkJob idB sb tb qb)
      (loopIter eng (mkJob idA sa ta qa)
        { s with processing := true }).1).1.queue.jobs =
      [G₁ (mkJob idA sa ta qa), G₂ (mkJob idB sb tb qb)] := by
    rw [hjobs2, hjobs5, mapMatch_pair]
    rw [if_neg (show ¬((G₁ (mkJob idA sa ta qa)).id =
        (mkJob idB sb tb qb).id)
      from fun h => hne (hid1.symm.trans h))]
    rw [if_pos (show (mkJob idB sb tb qb).id = (mkJob idB sb tb qb).id
      from rfl)]
  have hfind3 : (loopIter eng (mkJob idB sb tb qb)
      (loopIter eng (mkJob idA sa ta qa)
        { s with processing := true }).1).1.queue.jobs.find?
      (fun j => j.status = ConversionStatus.queued) = Option.none := by
    rw [hjobs6]
    refine List.find?_eq_none.mpr ?_
    intro x hx
    rcases List.mem_cons.mp hx with rfl | hx'
    · simp [hstA]
    rcases List.mem_cons.mp hx' with rfl | hnil
    · simp [hdone2.1]
    · cases hnil
  have hloop : (startQueueLoop eng (countQueued s.queue.jobs + 1)
      { s with processing := true }).1 =
      (loopIter eng (mkJob idB sb tb qb)
        (loopIter eng (mkJob idA sa ta qa)
          { s with processing := true }).1).1 := by
    rw [hfuel]
    rw [startQueueLoop_succ_some eng (0 + 1 + 1) _ _ hfind1]
    rw [startQueueLoop_succ_some eng (0 + 1) _ _ hfind2]
    rw [startQueueLoop_succ_none eng 0 _ hfind3]
  have hfst := startQueue_fst_false eng s hp
  refine ⟨G₁ (mkJob idA sa ta qa), G₂ (mkJob idB sb tb qb), ?_,
    hid1, hstA, hdone1.2.1, hdone1.2.2.1, hdone1.2.2.2,
    hid2, hdone2.1, hdone2.2.2.1, hdone2.2.2.2.1, hdone2.2.1,
    hdone2.2.2.2.2, ?_, ?_⟩
  · rw [hfst]
    show (startQueueLoop eng (countQueued s.queue.jobs + 1)
      { s with processing := true }).1.queue.jobs = _
    rw [hloop]
    exact hjobs6
  · rw [hfst]
    show (startQueueLoop eng (countQueued s.queue.jobs + 1)
      { s with processing := true }).1.queue.activeJob = none
    rw [hloop]
    exact hact2
  · rw [hfst]

/-- Engine oracle that throws on the job with id `"a"` and succeeds
otherwise. -/
def engAB : Engine := fun jx =>
  if jx.id = "a" then EngineOutcome.err [] (JsError.plainError "boom")
  else EngineOutcome.ok [] 5

/-- C3 witness: the failure-isolation theorem evaluated on the concrete
store `[A("a", fails), B("b", succeeds)]`. -/
theorem engine_failure_isolated_witness :
    ∃ A' B', (startQueue engAB twoJobState).1.queue.jobs = [A', B'] ∧
      A'.id = "a" ∧ A'.status = ConversionStatus.failed ∧
      A'.error = some (JsError.plainError "boom") ∧ A'.result = Option.none ∧
      (∃ c, A'.completedAt = some c) ∧
      B'.id = "b" ∧ B'.status = ConversionStatus.completed ∧
      B'.result = some 5 ∧ B'.progress = 100 ∧ B'.error = Option.none ∧
      (∃ c, B'.completedAt = some c) ∧
      (startQueue engAB twoJobState).1.queue.activeJob = none ∧
      (startQueue engAB twoJobState).1.processing = false :=
  engine_failure_isolated engAB twoJobState "a" "b" 0 0 0 1 1 1
    (by decide) rfl rfl [] (JsError.plainError "boom") [] 5 rfl rfl

/-- C9 witness: the `isComplete` characterisation evaluated concretely — a
store with one completed job is complete, a store with one cancelled job is
not. -/
theorem isComplete_iff_nonempty_all_settled_witness :
    (statistics completedState).isComplete = true ∧
    (statistics cancelledQueuedState).isComplete = false := by
  constructor
  · exact (isComplete_iff_nonempty_all_settled completedState).1.mpr
      ⟨by decide, by decide⟩
  · exact (isComplete_iff_nonempty_all_settled cancelledQueuedState).2
      (cancelledQueuedState.queue.jobs.getD 0 defaultJob) (by decide) rfl

end BMC
